import Mathlib

/-!
Shallow embedding of the `RS_scanner` repository (files `utils.py`, `app.py`,
`fetch_and_save.py`) and proofs about the claims of its specification.

Modelling conventions, used throughout:

* A Python float that may be NaN is modelled as `PVal := Option ℚ`, with
  `none` standing for NaN (`yfinance` price frames hold only finite floats
  and NaN).  Arithmetic propagates `none`; Python truthiness (`if x:`) is
  `truthy` below, where NaN is truthy and `0` is falsy, exactly as in Python.
* A pandas `Series` of closing prices is a `List PVal`, oldest first, so that
  the Python `iloc[-k]` is `iloc s k` below.
* External I/O (a `yf.download` result, `Ticker.info`, `fast_info`) is passed
  in as explicit data: `none` models the call raising an exception (every
  such call in the source sits inside a `try`/`except`).
* The JSON sector cache is an insertion-ordered association list with unique
  keys, as a JSON object is; `upsert` is Python dict assignment.  A write log
  (`wlog`) records the keys of all cache writes, so that "performs no cache
  write" is observable in the functional model.
* Thread-pool fan-out is modelled sequentially in submission order: the
  source iterates `for future in future_to_ticker` (dict insertion order)
  and appends `future.result()` in that order, so the accumulated list order
  is the batch order; cache writes are per-key (`last-write-wins` over
  disjoint keys), so the sequential model is faithful.
* `list(all_tickers - processed_tickers)` iterates a Python set, whose order
  is unspecified; the model fixes the canonical order `tickers.dedup.filter`.
  No claim depends on that order.
-/

/-! ## Python float values (`none` = NaN) -/

abbrev PVal := Option ℚ

/-- Python truthiness of a float: `0.0` is falsy, NaN and every other float
is truthy. -/
def truthy : PVal → Bool
  | none => true
  | some q => q ≠ 0

/-- `pd.isna` on a scalar. -/
def pisna : PVal → Bool
  | none => true
  | some _ => false

/-- Python `x != 0` on a float: NaN compares unequal to `0`. -/
def pvalNe0 : PVal → Bool
  | none => true
  | some q => q ≠ 0

/-- Subtraction, propagating NaN. -/
def psub : PVal → PVal → PVal
  | some a, some b => some (a - b)
  | _, _ => none

/-- Division, propagating NaN.  Division by exactly `0` is mapped to `none`;
every use in the source is guarded so that a `0` divisor never reaches it. -/
def pdiv : PVal → PVal → PVal
  | some a, some b => if b = 0 then none else some (a / b)
  | _, _ => none

/-- Multiplication, propagating NaN. -/
def pmul : PVal → PVal → PVal
  | some a, some b => some (a * b)
  | _, _ => none

/-- Round half to even (Python's `round` tie-breaking) on an exact rational. -/
def rhe (x : ℚ) : ℤ :=
  let f := ⌊x⌋
  let r := x - (f : ℚ)
  if r < 1/2 then f
  else if 1/2 < r then f + 1
  else if f % 2 = 0 then f else f + 1

/-- Python `round(x, d)` on an exact rational. -/
def pyround (x : ℚ) (d : ℕ) : ℚ := (rhe (x * 10 ^ d) : ℚ) / 10 ^ d

/-- Python `round(x, d)` on a possibly-NaN value (`round(nan, d)` is NaN). -/
def pround : PVal → ℕ → PVal
  | none, _ => none
  | some q, d => some (pyround q d)

/-- `series.iloc[-k]` for `k ≥ 1`, series listed oldest first.  Out-of-range
access (never reached: every use is guarded by a length check in the source)
yields `none`. -/
def iloc (s : List PVal) (k : ℕ) : PVal := s.getD (s.length - k) none

/-! ## `utils.sanitize_ticker_for_yf` -/

def sanitize_ticker_for_yf (ticker : String) : String :=
  if ticker.contains '-' then ticker.replace "-" "-P"
  else if ticker.contains '.' then ticker.replace "." "-"
  else ticker

/-! ## RS computation (`utils.process_single_ticker`, lines 248–292)

`stock_ret = (stock_latest - stock_60ago) / stock_60ago if stock_60ago else 0`
— note that a NaN `stock_60ago` is truthy, so the division runs and the
return is NaN. -/

def retCalc (latest old : PVal) : PVal :=
  if truthy old then pdiv (psub latest old) old else some 0

/-- The `(rs_score, rs5_score)` pair computed by `process_single_ticker`.
`qqq = none` models `qqq_data['Close']` raising (empty benchmark download):
the surrounding `except` then leaves both scores at their initial `0`.
If either series is shorter than 67 sessions, both scores stay `0`. -/
def computeScores (s : List PVal) (qqq : Option (List PVal)) : PVal × PVal :=
  match qqq with
  | none => (some 0, some 0)
  | some q =>
    if 67 ≤ s.length ∧ 67 ≤ q.length then
      let stockRet := retCalc (iloc s 1) (iloc s 61)
      let qqqRet := retCalc (iloc q 1) (iloc q 61)
      let stockRet5 := retCalc (iloc s 6) (iloc s 66)
      let qqqRet5 := retCalc (iloc q 6) (iloc q 66)
      (psub stockRet qqqRet, psub stockRet5 qqqRet5)
    else (some 0, some 0)

/-! ## Sector/industry cache (`SECTOR_CACHE`) -/

/-- One cache value `{'Sector': …, 'Industry': …}`; a field is `none` when
the JSON object lacks that key. -/
structure CacheEntry where
  sector : Option String
  industry : Option String
  deriving DecidableEq

/-- The global cache plus a log of the keys of all writes performed. -/
structure CacheSt where
  entries : List (String × CacheEntry)
  wlog : List String
  deriving DecidableEq

/-- `dict.get` / JSON object lookup. -/
def lookupEntry : List (String × CacheEntry) → String → Option CacheEntry
  | [], _ => none
  | (k1, v) :: rest, k => if k1 = k then some v else lookupEntry rest k

/-- Python dict assignment `d[k] = v`: replace in place, else append. -/
def upsert (l : List (String × CacheEntry)) (k : String) (v : CacheEntry) :
    List (String × CacheEntry) :=
  if (lookupEntry l k).isSome then
    l.map (fun p => if p.1 = k then (k, v) else p)
  else l ++ [(k, v)]

def cacheWrite (c : CacheSt) (k : String) (v : CacheEntry) : CacheSt :=
  ⟨upsert c.entries k v, c.wlog ++ [k]⟩

/-- The sentinel list of `utils.py` line 310: `['N/A', 'nan', 'NONE']`. -/
def sentinelVals : List String := ["N/A", "nan", "NONE"]

/-- Python truthiness of the cached dict (`if cached and …`): an empty JSON
object is falsy. -/
def entryTruthy (e : CacheEntry) : Bool := e.sector.isSome || e.industry.isSome

/-- `cached.get(f) not in ['N/A', 'nan', 'NONE']` — an absent field gives
`None`, which is not in the sentinel list. -/
def notSentinel : Option String → Bool
  | none => true
  | some s => ¬ (s ∈ sentinelVals)

/-- The cache-validity test of `utils.py` line 310. -/
def cacheHit : Option CacheEntry → Bool
  | none => false
  | some e => entryTruthy e && notSentinel e.sector && notSentinel e.industry

/-! ## Metadata fetch (`utils.process_single_ticker`, lines 294–338) -/

/-- The relevant fields of `yf.Ticker(...).info`; `none` = key absent (or
present with value `None`, which each `get`-with-default plus falsy check
treats identically). -/
structure TickerInfo where
  quoteType : Option String
  sector : Option String
  industry : Option String
  deriving DecidableEq

/-- Python `str.upper()` (ASCII as produced by the provider). -/
def pyUpper (s : String) : String := String.mk (s.data.map Char.toUpper)

/-- Python `needle in hay` on strings (substring test). -/
def containsSub (hay needle : String) : Bool :=
  hay.toList.tails.any (fun t => needle.toList.isPrefixOf t)

/-- Sector/industry resolution from a successful `t.info` fetch
(lines 319–332). -/
def fetchSectorIndustry (info : TickerInfo) : String × String :=
  let qt := pyUpper (info.quoteType.getD "")
  if containsSub qt "ETF" then ("ETF", "ETF")
  else if containsSub qt "ETN" then ("ETN", "ETN")
  else
    let s0 := info.sector.getD "N/A"
    let i0 := info.industry.getD "N/A"
    (if s0 = "" then "N/A" else s0, if i0 = "" then "N/A" else i0)

/-- Outcome of the sector/industry block: either the `KeyError` raised when a
"valid" cached entry lacks the `Sector`/`Industry` key (line 311–312, caught
by the outer `except`, killing the ticker), or resolved values together with
the cache write to perform (`none` = no write). -/
inductive MetaOut where
  | keyErr
  | ok (sector industry : String) (wr : Option CacheEntry)
  deriving DecidableEq

/-- Lines 305–338 of `utils.py`, as a function of the looked-up cache entry.
`infoFetch = none` models `t.info` raising (caught at line 336). -/
def resolveMetadata (infoFetch : Option TickerInfo) (cached : Option CacheEntry) :
    MetaOut :=
  if cacheHit cached then
    match cached with
    | some e =>
      match e.sector, e.industry with
      | some s, some i => MetaOut.ok s i none
      | _, _ => MetaOut.keyErr
    | none => MetaOut.keyErr
  else
    match infoFetch with
    | none => MetaOut.ok "N/A" "N/A" none
    | some info =>
      let si := fetchSectorIndustry info
      MetaOut.ok si.1 si.2 (some ⟨some si.1, some si.2⟩)

/-! ## `utils.process_single_ticker` -/

/-- The external world seen while processing one ticker: its column of the
batch download (`none` = ticker absent from the frame or no `Close` column),
the `t.info` outcome, and the `fast_info['market_cap']` outcome
(`none` = raises, `some none` = returns `None`). -/
structure TickerEnv where
  stockClose : Option (List PVal)
  infoFetch : Option TickerInfo
  mcFetch : Option (Option ℚ)
  deriving DecidableEq

/-- The `Market Cap` output field: either the `"N/A"` marker or the formatted
`f"{mc/1e9:.2f}B"` string, kept as the exact rational `mc / 1e9`. -/
inductive MCapField where
  | na
  | fmtB (q : ℚ)
  deriving DecidableEq

/-- Lines 340–345 and the `'Market Cap'` field of line 350: `market_cap`
starts at `0`, the fetch may overwrite it, and a falsy result (`0` or `None`
or an exception) formats as `"N/A"`. -/
def mcapField : Option (Option ℚ) → MCapField
  | none => MCapField.na
  | some none => MCapField.na
  | some (some q) => if q = 0 then MCapField.na else MCapField.fmtB (q / 1000000000)

/-- One output record of `process_single_ticker` (line 347–355). -/
structure ResultRec where
  ticker : String
  price : PVal
  mcap : MCapField
  rs : PVal
  rs5 : PVal
  sector : String
  industry : String
  deriving DecidableEq

/-- `process_single_ticker` as a function of the entry cached under the
ticker's key: the record produced (`none` = the function returns `None`) and
the cache write performed (`none` = no write).  The cache is read at exactly
one key (`SECTOR_CACHE.get(original_ticker)`) and written at most at that
same key, which this factoring makes explicit. -/
def pstCore (t : String) (env : TickerEnv) (qqq : Option (List PVal))
    (eo : Option CacheEntry) : Option ResultRec × Option CacheEntry :=
  match env.stockClose with
  | none => (none, none)
  | some s =>
    if s.isEmpty then (none, none)
    else
      let latest := iloc s 1
      let scores := computeScores s qqq
      match resolveMetadata env.infoFetch eo with
      | MetaOut.keyErr => (none, none)
      | MetaOut.ok sec ind wr =>
        (some { ticker := t, price := latest, mcap := mcapField env.mcFetch,
                rs := scores.1, rs5 := scores.2, sector := sec, industry := ind },
         wr)

/-- `utils.process_single_ticker`: produce the record (or `None`) and the
updated cache state. -/
def process_single_ticker (t : String) (env : TickerEnv)
    (qqq : Option (List PVal)) (c : CacheSt) : Option ResultRec × CacheSt :=
  let r := pstCore t env qqq (lookupEntry c.entries t)
  (r.1, match r.2 with
        | some w => cacheWrite c t w
        | none => c)

/-- The cache entry under the ticker's key after one `process_single_ticker`
call. -/
def entryAfter (t : String) (env : TickerEnv) (qqq : Option (List PVal))
    (eo : Option CacheEntry) : Option CacheEntry :=
  match (pstCore t env qqq eo).2 with
  | some w => some w
  | none => eo

/-! ## Batch pipeline (`utils.get_market_cap_and_rs`) -/

/-- `range(0, len(l), n)` slicing: contiguous chunks, the last possibly
short.  Called with `n = 20` (`batch_size`). -/
def chunksOf (n : ℕ) : List α → List (List α)
  | [] => []
  | x :: xs => (x :: xs.take (n - 1)) :: chunksOf n (xs.drop (n - 1))
  termination_by l => l.length
  decreasing_by simp [Nat.lt_succ_iff]

/-- The external world of one pipeline run: benchmark series, per-ticker
data for the first pass and for the retry pass, and per-batch bulk-download
failure (`yf.download` raising aborts exactly that batch). -/
structure PipelineEnv where
  qqq : Option (List PVal)
  env1 : String → TickerEnv
  fails1 : List String → Bool
  env2 : String → TickerEnv
  fails2 : List String → Bool

/-- Process the tickers of one batch in order, appending each non-`None`
record (`if res: results.append(res)`). -/
def procBatch (qqq : Option (List PVal)) (env : String → TickerEnv) :
    List String → CacheSt → List ResultRec × CacheSt
  | [], c => ([], c)
  | t :: ts, c =>
    let r := process_single_ticker t (env t) qqq c
    let rest := procBatch qqq env ts r.2
    ((match r.1 with
      | some rec => rec :: rest.1
      | none => rest.1), rest.2)

/-- The first pass over all batches; a failing bulk download skips the
whole batch. -/
def procBatches (qqq : Option (List PVal)) (env : String → TickerEnv)
    (fails : List String → Bool) :
    List (List String) → CacheSt → List ResultRec × CacheSt
  | [], c => ([], c)
  | b :: bs, c =>
    if fails b then procBatches qqq env fails bs c
    else
      let r := procBatch qqq env b c
      let rest := procBatches qqq env fails bs r.2
      (r.1 ++ rest.1, rest.2)

/-- Lines 154–179: `processed_tickers` contains exactly the tickers of
records whose `RS` is a non-NaN float (including exactly `0`); the failed
set is the remaining tickers.  Python set iteration order is unspecified;
the model uses the canonical order `dedup`-then-`filter`. -/
def failedOf (tickers : List String) (res : List ResultRec) : List String :=
  tickers.dedup.filter
    (fun t => !(res.any (fun r => r.ticker == t && r.rs.isSome)))

/-- Lines 204–206: on a successful retry, drop every accumulated record of
that ticker and append the fresh one. -/
def applyRetryRec (acc : List ResultRec) (r : ResultRec) : List ResultRec :=
  acc.filter (fun x => !(x.ticker == r.ticker)) ++ [r]

/-- Retry processing of one batch: a retry record counts as recovered iff
its `RS` is present and non-NaN (line 203). -/
def procRetryBatch (qqq : Option (List PVal)) (env2 : String → TickerEnv) :
    List String → List ResultRec → CacheSt → List ResultRec × CacheSt
  | [], acc, c => (acc, c)
  | t :: ts, acc, c =>
    let r := process_single_ticker t (env2 t) qqq c
    let acc1 := match r.1 with
      | some rec => if rec.rs.isSome then applyRetryRec acc rec else acc
      | none => acc
    procRetryBatch qqq env2 ts acc1 r.2

/-- The retry pass over the re-batched failed set. -/
def procRetryBatches (qqq : Option (List PVal)) (env2 : String → TickerEnv)
    (fails2 : List String → Bool) :
    List (List String) → List ResultRec → CacheSt → List ResultRec × CacheSt
  | [], acc, c => (acc, c)
  | b :: bs, acc, c =>
    if fails2 b then procRetryBatches qqq env2 fails2 bs acc c
    else
      let r := procRetryBatch qqq env2 b acc c
      procRetryBatches qqq env2 fails2 bs r.1 r.2

/-- The first full pass of `get_market_cap_and_rs` (lines 119–149). -/
def firstPass (pe : PipelineEnv) (tickers : List String) (c0 : CacheSt) :
    List ResultRec × CacheSt :=
  procBatches pe.qqq pe.env1 pe.fails1 (chunksOf 20 tickers) c0

/-- `utils.get_market_cap_and_rs`: first pass, retry of the failed set,
final results and final cache state (which line 217 then persists). -/
def get_market_cap_and_rs (pe : PipelineEnv) (tickers : List String)
    (c0 : CacheSt) : List ResultRec × CacheSt :=
  let r1 := firstPass pe tickers c0
  let failed := failedOf tickers r1.1
  procRetryBatches pe.qqq pe.env2 pe.fails2 (chunksOf 20 failed) r1.1 r1.2

/-! ## `app.calculate_batch` (stateless variant) -/

/-- One input item `{'Ticker': …, 'Sector': …, 'Industry': …}`. -/
structure ItemRec where
  ticker : String
  sector : Option String
  industry : Option String
  deriving DecidableEq

/-- The `closes` frame: one column of closing prices per symbol and the
number of rows (`len(closes)`); every column has exactly `nrows` entries,
padded with NaN, as in a pandas frame. -/
structure Frame where
  cols : List (String × List PVal)
  nrows : ℕ
  deriving DecidableEq

/-- `data.empty`: a frame with no rows or no columns. -/
def frameEmpty (f : Frame) : Bool := f.nrows = 0 || f.cols.isEmpty

/-- Column lookup in the frame. -/
def colLookup : List (String × List PVal) → String → Option (List PVal)
  | [], _ => none
  | (k1, v) :: rest, k => if k1 = k then some v else colLookup rest k

/-- `closes.iloc[-k].get(t, dflt)`: the row value for symbol `t`, or the
default when the symbol has no column. -/
def rowGet (cols : List (String × List PVal)) (k : ℕ) (t : String)
    (dflt : PVal) : PVal :=
  match colLookup cols t with
  | none => dflt
  | some col => iloc col k

/-- Python `x == 0` on a float (`NaN == 0` is false). -/
def pEq0 : PVal → Bool
  | none => false
  | some q => q = 0

/-- One output record of `calculate_batch`. -/
structure BatchRec where
  ticker : String
  price : PVal
  rs : PVal
  mcap : PVal
  shares : ℚ
  sector : String
  industry : String
  deriving DecidableEq

/-- Lines 157–159: `q_chg = (q_cur / q_prev) if q_prev != 0 else 0`, with
row defaults `0` for a missing `QQQ` column; a NaN `q_prev` is `!= 0`. -/
def benchChange (cols : List (String × List PVal)) : PVal :=
  let qCur := rowGet cols 1 "QQQ" (some 0)
  let qPrev := rowGet cols 61 "QQQ" (some 0)
  if pvalNe0 qPrev then pdiv qCur qPrev else some 0

/-- `info_map.get(t, {})` where `info_map = {x['Ticker']: x for x in items}`
— on duplicate tickers the last item wins. -/
def infoMapGet (items : List ItemRec) (t : String) : Option ItemRec :=
  items.reverse.find? (fun x => x.ticker = t)

/-- The loop body for one ticker (lines 180–206): skip when the latest or
60-sessions-ago price is missing/NaN or the old price is `0`; otherwise
build the record.  `round(rs, 4)` of a NaN `rs` stays NaN. -/
def calcRow (cols : List (String × List PVal)) (qchg : PVal)
    (sh : String → ℚ) (items : List ItemRec) (t : String) : Option BatchRec :=
  let cur := rowGet cols 1 t none
  let prev := rowGet cols 61 t none
  if pisna cur || pisna prev || pEq0 prev then none
  else
    let chg := pdiv cur prev
    let rs := if pvalNe0 qchg then psub (pdiv chg qchg) (some 1)
              else some 0
    let base := infoMapGet items t
    some { ticker := t, price := pround cur 2, rs := pround rs 4,
           mcap := pround (pmul cur (some (sh t))) 0, shares := sh t,
           sector := (base.bind (fun x => x.sector)).getD "",
           industry := (base.bind (fun x => x.industry)).getD "" }

/-- `app.calculate_batch`: `dl = none` models `yf.download` raising
(line 135–137, returns `[]`); then the empty-frame and `< 61` rows guards;
then one pass over the tickers.  `sh t` is the shares-outstanding fetch,
`0` on failure (`get_shares_outstanding`). -/
def calculate_batch (items : List ItemRec) (dl : Option Frame)
    (sh : String → ℚ) : List BatchRec :=
  match dl with
  | none => []
  | some data =>
    if frameEmpty data then []
    else if data.nrows < 61 then []
    else
      let qchg := benchChange data.cols
      (items.map (fun x => x.ticker)).filterMap
        (calcRow data.cols qchg sh items)

/-! ## Ticker source and `/api/tickers` (`utils.get_tickers_from_excel`,
`app.get_all_tickers`) -/

/-- `utils.get_tickers_from_excel`: `fileRead = none` models `pd.read_excel`
raising — the handler prints and returns `[]`.  On success the first column's
non-null cells become `str(t).strip().upper()` ticker strings. -/
def get_tickers_from_excel (fileRead : Option (List String)) : List String :=
  match fileRead with
  | none => []
  | some rows => rows.map (fun t => t.trim.toUpper)

/-- A Flask JSON response of `/api/tickers`. -/
inductive ApiResp where
  | success (data : List String) (count : ℕ)
  | error (msg : String)
  deriving DecidableEq

/-- `app.get_all_tickers`: read the source, truncate to 100, answer
success.  The `except` branch (`ApiResp.error`) is reachable only from
`jsonify` itself, not from a source-load failure, since the loader catches
its own exceptions. -/
def get_all_tickers (fileRead : Option (List String)) : ApiResp :=
  let data := get_tickers_from_excel fileRead
  let data := if 100 < data.length then data.take 100 else data
  ApiResp.success data data.length

/-! ## Derived notions used by the idempotence analysis -/

/-- The tickers actually processed by a pass: those of the batches whose
bulk download does not fail, in order. -/
def effTickers (fails : List String → Bool) (bs : List (List String)) :
    List String :=
  (bs.filter (fun b => !(fails b))).flatten

/-- The retry accumulation, as a fold over the per-ticker outcomes. -/
def retryFoldOuts : List (Option ResultRec) → List ResultRec → List ResultRec
  | [], acc => acc
  | o :: os, acc =>
    retryFoldOuts os
      (match o with
       | some r => if r.rs.isSome then applyRetryRec acc r else acc
       | none => acc)

/-- The cache object has JSON-object semantics: unique keys. -/
def keysNodup (l : List (String × CacheEntry)) : Prop :=
  (l.map Prod.fst).Nodup

/-- A cache entry is stable for a ticker when one more
`process_single_ticker` call would leave it unchanged. -/
def StableAt (t : String) (env : TickerEnv) (qqq : Option (List PVal))
    (eo : Option CacheEntry) : Prop :=
  entryAfter t env qqq eo = eo

/-! ## Concrete scenarios used by counterexamples and witnesses -/

/-- A 67-session flat benchmark series. -/
def benchSeries : List PVal := List.replicate 67 (some 100)

/-- A ticker with a single session of history (insufficient for RS). -/
def envShort : TickerEnv :=
  { stockClose := some [some 100],
    infoFetch := some ⟨some "EQUITY", some "Technology", some "Software"⟩,
    mcFetch := some (some 2000000000) }

def peShort : PipelineEnv :=
  { qqq := some benchSeries,
    env1 := fun _ => envShort, fails1 := fun _ => false,
    env2 := fun _ => envShort, fails2 := fun _ => false }

/-- The record `process_single_ticker` produces for `envShort`. -/
def recShort : ResultRec :=
  { ticker := "A", price := some 100, mcap := MCapField.fmtB 2,
    rs := some 0, rs5 := some 0, sector := "Technology",
    industry := "Software" }

/-- A ticker with 67 sessions whose 60-sessions-ago price is NaN: its RS
comes out NaN on every pass. -/
def envNan : TickerEnv :=
  { stockClose := some ((List.replicate 66 none) ++ [some 100]),
    infoFetch := some ⟨some "EQUITY", some "Tech", some "Soft"⟩,
    mcFetch := none }

def peNan : PipelineEnv :=
  { qqq := some benchSeries,
    env1 := fun _ => envNan, fails1 := fun _ => false,
    env2 := fun _ => envNan, fails2 := fun _ => false }

/-- A second NaN-RS ticker (metadata fetch also failing). -/
def envNanB : TickerEnv :=
  { stockClose := some ((List.replicate 66 none) ++ [some 50]),
    infoFetch := none,
    mcFetch := some (some 0) }

def peNanB : PipelineEnv :=
  { qqq := some (List.replicate 67 (some 200)),
    env1 := fun _ => envNanB, fails1 := fun _ => false,
    env2 := fun _ => envNanB, fails2 := fun _ => false }

/-- The record `process_single_ticker` produces for `envNanB`. -/
def recNanB : ResultRec :=
  { ticker := "C", price := some 50, mcap := MCapField.na,
    rs := none, rs5 := none, sector := "N/A", industry := "N/A" }

/-- A metadata- and market-cap-failing ticker with a tiny price history. -/
def envMcFail : TickerEnv :=
  { stockClose := some [some 7], infoFetch := none, mcFetch := none }

/-- The record `process_single_ticker` produces for `envMcFail`. -/
def recMcFail : ResultRec :=
  { ticker := "M", price := some 7, mcap := MCapField.na,
    rs := some 0, rs5 := some 0, sector := "N/A", industry := "N/A" }

/-- A frame with a flat benchmark (100 → 100) and a stock moving
100 → 120 over the 60-session window. -/
def frameFlat : Frame :=
  { cols := [("QQQ", List.replicate 61 (some 100)),
             ("A", List.replicate 60 (some 100) ++ [some 120])],
    nrows := 61 }

/-- A frame whose benchmark 60-sessions-ago price is exactly `0`. -/
def frameQ0 : Frame :=
  { cols := [("QQQ", some 0 :: List.replicate 60 (some 100)),
             ("A", List.replicate 60 (some 100) ++ [some 120])],
    nrows := 61 }

/-- The record `calculate_batch` produces for `"A"` in `frameQ0` with
1000 shares. -/
def recQ0 : BatchRec :=
  { ticker := "A", price := some 120, rs := some 0, mcap := some 120000,
    shares := 1000, sector := "", industry := "" }

/-- A frame for a ticker whose shares fetch fails (yields `0`). -/
def frameZeroShares : Frame :=
  { cols := [("QQQ", List.replicate 61 (some 50)),
             ("Z", List.replicate 60 (some 10) ++ [some 20])],
    nrows := 61 }

/-- A frame whose ticker `"W"` has a `0` price 60 sessions ago. -/
def frameZeroPrev : Frame :=
  { cols := [("QQQ", List.replicate 61 (some 50)),
             ("W", some 0 :: List.replicate 60 (some 3))],
    nrows := 61 }

/-- A cache entry with empty-string fields (sentinel per the spec, valid
per the code). -/
def cacheEmptyStr : CacheSt := ⟨[("A", ⟨some "", some ""⟩)], []⟩

/-- A fetch outcome that would resolve to Technology/Software if it were
consulted. -/
def envC6 : TickerEnv :=
  { stockClose := some [some 100],
    infoFetch := some ⟨none, some "Technology", some "Software"⟩,
    mcFetch := some none }

/-! ## Helper lemmas -/

theorem iloc_replicate (n k : ℕ) (x : PVal) (hk : 1 ≤ k) (hkn : k ≤ n) :
    iloc (List.replicate n x) k = x := by
  unfold iloc
  rw [List.getD_eq_getElem?_getD, List.getElem?_replicate]
  simp only [List.length_replicate]
  rw [if_pos (by omega)]
  rfl

theorem pyround_zero (d : ℕ) : pyround 0 d = 0 := by
  norm_num [pyround, rhe]

/-- Membership in the retry candidate set, characterised. -/
theorem mem_failedOf (tickers : List String) (res : List ResultRec)
    (t : String) :
    t ∈ failedOf tickers res ↔
      t ∈ tickers ∧ ∀ r ∈ res, r.ticker = t → r.rs = none := by
  simp only [failedOf, List.mem_filter, List.mem_dedup, Bool.not_eq_true',
    List.any_eq_false, Bool.and_eq_true, beq_iff_eq]
  constructor
  · rintro ⟨h1, h2⟩
    refine ⟨h1, fun r hr hrt => ?_⟩
    rcases hx : r.rs with _ | q
    · rfl
    · exact absurd ⟨hrt, by simp [hx]⟩ (h2 r hr)
  · rintro ⟨h1, h2⟩
    refine ⟨h1, fun r hr => ?_⟩
    rintro ⟨hrt, hs⟩
    rw [h2 r hr hrt] at hs
    simp at hs

theorem notMem_failedOf (tickers : List String) (res : List ResultRec)
    (r : ResultRec) (hr : r ∈ res) (hrs : r.rs.isSome) :
    r.ticker ∉ failedOf tickers res := by
  rw [mem_failedOf]
  rintro ⟨-, h⟩
  have := h r hr rfl
  simp [this] at hrs

/-- Every produced record's `Market Cap` field is a function of the
`fast_info` outcome alone — independent of the cache state. -/
theorem pst_mcap (t : String) (env : TickerEnv) (qqq : Option (List PVal))
    (c : CacheSt) (r : ResultRec)
    (h : (process_single_ticker t env qqq c).1 = some r) :
    r.mcap = mcapField env.mcFetch := by
  unfold process_single_ticker pstCore at h
  rcases hsc : env.stockClose with _ | s
  all_goals rw [hsc] at h
  · simp at h
  · simp only at h
    split at h
    · simp at h
    · split at h
      · simp at h
      · simp only [Option.some.injEq] at h
        subst h
        rfl

/-- Every produced record carries the ticker it was processed under. -/
theorem pst_ticker (t : String) (env : TickerEnv) (qqq : Option (List PVal))
    (c : CacheSt) (r : ResultRec)
    (h : (process_single_ticker t env qqq c).1 = some r) :
    r.ticker = t := by
  unfold process_single_ticker pstCore at h
  rcases hsc : env.stockClose with _ | s
  all_goals rw [hsc] at h
  · simp at h
  · simp only at h
    split at h
    · simp at h
    · split at h
      · simp at h
      · simp only [Option.some.injEq] at h
        subst h
        rfl

/-- Both scores of a produced record are exactly the `computeScores`
output on that ticker's series. -/
theorem pst_scores (t : String) (env : TickerEnv) (qqq : Option (List PVal))
    (c : CacheSt) (r : ResultRec) (s : List PVal)
    (hs : env.stockClose = some s)
    (h : (process_single_ticker t env qqq c).1 = some r) :
    r.rs = (computeScores s qqq).1 ∧ r.rs5 = (computeScores s qqq).2 := by
  unfold process_single_ticker pstCore at h
  rw [hs] at h
  simp only at h
  split at h
  · simp at h
  · split at h
    · simp at h
    · simp only [Option.some.injEq] at h
      subst h
      exact ⟨rfl, rfl⟩

/-- With fewer than 67 sessions of own history, both scores stay `0`. -/
theorem computeScores_short (s : List PVal) (qqq : Option (List PVal))
    (hlen : s.length < 67) : computeScores s qqq = (some 0, some 0) := by
  unfold computeScores
  rcases qqq with _ | q
  · rfl
  · simp only
    split
    · next hc => exact absurd hc.1 (by omega)
    · rfl

/-- After a successful retry replacement, the accumulated list holds exactly
one record for that ticker: the fresh one. -/
theorem applyRetryRec_filter (acc : List ResultRec) (r : ResultRec) :
    (applyRetryRec acc r).filter (fun x => x.ticker == r.ticker) = [r] := by
  unfold applyRetryRec
  rw [List.filter_append]
  rw [List.filter_filter]
  simp

/-- Replacement keeps every accumulated record of a different ticker. -/
theorem applyRetryRec_keeps (acc : List ResultRec) (r x : ResultRec)
    (hx : x ∈ acc) (hne : x.ticker ≠ r.ticker) : x ∈ applyRetryRec acc r := by
  unfold applyRetryRec
  refine List.mem_append_left _ ?_
  rw [List.mem_filter]
  exact ⟨hx, by simpa using hne⟩

/-- Replacement never loses a ticker: every ticker present before is
present after. -/
theorem applyRetryRec_ticker_mem (acc : List ResultRec) (r : ResultRec)
    (t : String) (h : t ∈ acc.map (fun x => x.ticker)) :
    t ∈ (applyRetryRec acc r).map (fun x => x.ticker) := by
  rcases List.mem_map.1 h with ⟨x, hx, hxt⟩
  by_cases hcase : x.ticker = r.ticker
  · refine List.mem_map.2 ⟨r, ?_, by rw [← hxt, hcase]⟩
    unfold applyRetryRec
    simp
  · exact List.mem_map.2 ⟨x, applyRetryRec_keeps acc r x hx hcase, hxt⟩

/-- Origin of records after one retry batch: any record of the result was
accumulated before, or is a retry record with a present (non-NaN) RS. -/
theorem procRetryBatch_origin (qqq : Option (List PVal))
    (env2 : String → TickerEnv) (ts : List String) (acc : List ResultRec)
    (c : CacheSt) (r : ResultRec)
    (h : r ∈ (procRetryBatch qqq env2 ts acc c).1) :
    r ∈ acc ∨ r.rs.isSome := by
  induction ts generalizing acc c with
  | nil => exact Or.inl h
  | cons t ts ih =>
    unfold procRetryBatch at h
    rcases ih _ _ h with hacc | hsome
    · rcases hres : (process_single_ticker t (env2 t) qqq c).1 with _ | rec
      · rw [hres] at hacc
        exact Or.inl hacc
      · rw [hres] at hacc
        by_cases hrs : rec.rs.isSome
        · simp only [hrs, if_true] at hacc
          unfold applyRetryRec at hacc
          rcases List.mem_append.1 hacc with hl | hr
          · exact Or.inl (List.mem_of_mem_filter hl)
          · rcases List.mem_singleton.1 hr with rfl
            exact Or.inr hrs
        · simp only [hrs, if_false] at hacc
          exact Or.inl hacc
    · exact Or.inr hsome

/-- Origin of records after the whole retry pass. -/
theorem procRetryBatches_origin (qqq : Option (List PVal))
    (env2 : String → TickerEnv) (fails2 : List String → Bool)
    (bs : List (List String)) (acc : List ResultRec) (c : CacheSt)
    (r : ResultRec) (h : r ∈ (procRetryBatches qqq env2 fails2 bs acc c).1) :
    r ∈ acc ∨ r.rs.isSome := by
  induction bs generalizing acc c with
  | nil => exact Or.inl h
  | cons b bs ih =>
    unfold procRetryBatches at h
    split at h
    · exact ih _ _ h
    · rcases ih _ _ h with hacc | hsome
      · exact procRetryBatch_origin qqq env2 b acc c r hacc
      · exact Or.inr hsome

/-- One retry batch never loses a ticker from the accumulated results. -/
theorem procRetryBatch_ticker_mem (qqq : Option (List PVal))
    (env2 : String → TickerEnv) (ts : List String) (acc : List ResultRec)
    (c : CacheSt) (t : String) (h : t ∈ acc.map (fun x => x.ticker)) :
    t ∈ (procRetryBatch qqq env2 ts acc c).1.map (fun x => x.ticker) := by
  induction ts generalizing acc c with
  | nil => exact h
  | cons u ts ih =>
    unfold procRetryBatch
    apply ih
    rcases hres : (process_single_ticker u (env2 u) qqq c).1 with _ | rec
    · exact h
    · by_cases hrs : rec.rs.isSome
      · simp only [hrs, if_true]
        exact applyRetryRec_ticker_mem acc rec t h
      · simp only [hrs, if_false]
        exact h

/-- The retry pass never loses a ticker from the accumulated results. -/
theorem procRetryBatches_ticker_mem (qqq : Option (List PVal))
    (env2 : String → TickerEnv) (fails2 : List String → Bool)
    (bs : List (List String)) (acc : List ResultRec) (c : CacheSt)
    (t : String) (h : t ∈ acc.map (fun x => x.ticker)) :
    t ∈ (procRetryBatches qqq env2 fails2 bs acc c).1.map
      (fun x => x.ticker) := by
  induction bs generalizing acc c with
  | nil => exact h
  | cons b bs ih =>
    unfold procRetryBatches
    split
    · exact ih _ _ h
    · exact ih _ _ (procRetryBatch_ticker_mem qqq env2 b acc c t h)


theorem calculate_batch_none (items : List ItemRec) (sh : String → ℚ) :
    calculate_batch items none sh = [] := rfl

theorem calculate_batch_some (items : List ItemRec) (f : Frame)
    (sh : String → ℚ) :
    calculate_batch items (some f) sh =
      if frameEmpty f then []
      else if f.nrows < 61 then []
      else (items.map (fun x => x.ticker)).filterMap
        (calcRow f.cols (benchChange f.cols) sh items) := rfl

/-- The loop body skips the ticker when its guard fires. -/
theorem calcRow_guard (cols : List (String × List PVal)) (qchg : PVal)
    (sh : String → ℚ) (items : List ItemRec) (t : String)
    (h : (pisna (rowGet cols 1 t none) || pisna (rowGet cols 61 t none) ||
      pEq0 (rowGet cols 61 t none)) = true) :
    calcRow cols qchg sh items t = none := by
  unfold calcRow
  rw [if_pos h]

/-- The record built when the guard does not fire. -/
theorem calcRow_some (cols : List (String × List PVal)) (qchg : PVal)
    (sh : String → ℚ) (items : List ItemRec) (t : String)
    (h : (pisna (rowGet cols 1 t none) || pisna (rowGet cols 61 t none) ||
      pEq0 (rowGet cols 61 t none)) = false) :
    calcRow cols qchg sh items t =
      some { ticker := t, price := pround (rowGet cols 1 t none) 2,
             rs := pround (if pvalNe0 qchg then
                     psub (pdiv (pdiv (rowGet cols 1 t none)
                       (rowGet cols 61 t none)) qchg) (some 1)
                   else some 0) 4,
             mcap := pround (pmul (rowGet cols 1 t none) (some (sh t))) 0,
             shares := sh t,
             sector := ((infoMapGet items t).bind (fun x => x.sector)).getD "",
             industry := ((infoMapGet items t).bind
               (fun x => x.industry)).getD "" } := by
  unfold calcRow
  rw [if_neg (by simp [h])]

/-- A record built by the loop body is keyed by the loop's ticker. -/
theorem calcRow_ticker (cols : List (String × List PVal)) (qchg : PVal)
    (sh : String → ℚ) (items : List ItemRec) (t : String) (r : BatchRec)
    (h : calcRow cols qchg sh items t = some r) : r.ticker = t := by
  rcases hg : (pisna (rowGet cols 1 t none) || pisna (rowGet cols 61 t none) ||
      pEq0 (rowGet cols 61 t none)) with _ | _
  · rw [calcRow_some _ _ _ _ _ hg] at h
    injection h with h2
    subst h2
    rfl
  · rw [calcRow_guard _ _ _ _ _ hg] at h
    exact absurd h (by simp)

/-- A produced record's shares and market-cap fields: shares is the fetch
outcome verbatim, market cap is `round(cur * shares, 0)`. -/
theorem calcRow_mcap (cols : List (String × List PVal)) (qchg : PVal)
    (sh : String → ℚ) (items : List ItemRec) (t : String) (r : BatchRec)
    (h : calcRow cols qchg sh items t = some r) :
    r.shares = sh t ∧
      r.mcap = pround (pmul (rowGet cols 1 t none) (some (sh t))) 0 := by
  rcases hg : (pisna (rowGet cols 1 t none) || pisna (rowGet cols 61 t none) ||
      pEq0 (rowGet cols 61 t none)) with _ | _
  · rw [calcRow_some _ _ _ _ _ hg] at h
    injection h with h2
    subst h2
    exact ⟨rfl, rfl⟩
  · rw [calcRow_guard _ _ _ _ _ hg] at h
    exact absurd h (by simp)

/-- With a degenerate benchmark change (`q_chg == 0`), the loop body writes
`RS = round(0, 4) = 0`. -/
theorem calcRow_rs_qchg_zero (cols : List (String × List PVal))
    (sh : String → ℚ) (items : List ItemRec) (t : String) (r : BatchRec)
    (h : calcRow cols (some 0) sh items t = some r) : r.rs = some 0 := by
  rcases hg : (pisna (rowGet cols 1 t none) || pisna (rowGet cols 61 t none) ||
      pEq0 (rowGet cols 61 t none)) with _ | _
  · rw [calcRow_some _ _ _ _ _ hg] at h
    injection h with h2
    subst h2
    simp [pvalNe0, pround, pyround_zero]
  · rw [calcRow_guard _ _ _ _ _ hg] at h
    exact absurd h (by simp)

/-- Every record of a `calculate_batch` result passes through the loop body
at its own ticker, and only past the empty/short-frame guards. -/
theorem calculate_batch_mem (items : List ItemRec) (f : Frame)
    (sh : String → ℚ) (r : BatchRec)
    (hr : r ∈ calculate_batch items (some f) sh) :
    frameEmpty f = false ∧ 61 ≤ f.nrows ∧
      calcRow f.cols (benchChange f.cols) sh items r.ticker = some r := by
  rw [calculate_batch_some] at hr
  rcases hfe : frameEmpty f with _ | _ <;> rw [hfe] at hr
  · rw [if_neg (by simp)] at hr
    split at hr
    · exact absurd hr (by simp)
    · rcases List.mem_filterMap.1 hr with ⟨t, -, hrow⟩
      have ht := calcRow_ticker _ _ _ _ _ _ hrow
      subst ht
      exact ⟨rfl, by omega, hrow⟩
  · rw [if_pos (by simp)] at hr
    exact absurd hr (by simp)

/-- A flat benchmark at a nonzero price yields a benchmark change of
exactly `1`, not `0`. -/
theorem benchChange_flat (cols : List (String × List PVal)) (v : ℚ)
    (hv : v ≠ 0) (hc : rowGet cols 1 "QQQ" (some 0) = some v)
    (hp : rowGet cols 61 "QQQ" (some 0) = some v) :
    benchChange cols = some 1 := by
  unfold benchChange
  rw [hc, hp]
  rw [if_pos (by simp [pvalNe0, hv])]
  simp [pdiv, hv]

/-- A zero 60-sessions-ago benchmark price yields a benchmark change of
exactly `0` (the division-by-zero guard). -/
theorem benchChange_prev_zero (cols : List (String × List PVal))
    (hp : rowGet cols 61 "QQQ" (some 0) = some 0) :
    benchChange cols = some 0 := by
  unfold benchChange
  rw [hp]
  rw [if_neg (by simp [pvalNe0])]

/-- On a cache hit the metadata resolution never consults the fetch
outcome. -/
theorem resolveMetadata_hit_indep (f1 f2 : Option TickerInfo)
    (eo : Option CacheEntry) (h : cacheHit eo = true) :
    resolveMetadata f1 eo = resolveMetadata f2 eo := by
  unfold resolveMetadata
  rw [if_pos h, if_pos h]

/-- On a cache hit, `process_single_ticker` is independent of the metadata
fetch outcome: the external call is short-circuited. -/
theorem pst_hit_indep (t : String) (sc : Option (List PVal))
    (f1 f2 : Option TickerInfo) (mc : Option (Option ℚ))
    (qqq : Option (List PVal)) (c : CacheSt)
    (h : cacheHit (lookupEntry c.entries t) = true) :
    process_single_ticker t ⟨sc, f1, mc⟩ qqq c =
      process_single_ticker t ⟨sc, f2, mc⟩ qqq c := by
  unfold process_single_ticker pstCore
  rw [resolveMetadata_hit_indep f1 f2 _ h]

/-- `notSentinel` on an absent field. -/
theorem notSentinel_none : notSentinel none = true := rfl

/-- `notSentinel` on a present field, characterised. -/
theorem notSentinel_some (s : String) :
    notSentinel (some s) = true ↔ ¬(s = "N/A" ∨ s = "nan" ∨ s = "NONE") := by
  simp [notSentinel, sentinelVals]

/-- Python truthiness of a cached object, characterised. -/
theorem entryTruthy_iff (so io : Option String) :
    entryTruthy ⟨so, io⟩ = true ↔ so ≠ none ∨ io ≠ none := by
  simp [entryTruthy, Option.isSome_iff_ne_none]

/-- The code's cache-validity test, characterised: the entry must be a
nonempty object and each of the two fields, when present, must avoid
exactly `"N/A"`, `"nan"`, `"NONE"`.  An absent field passes the test; the
empty string and `"NULL"` pass as well. -/
theorem cacheHit_iff (co : Option CacheEntry) :
    cacheHit co = true ↔
      ∃ e, co = some e ∧ (e.sector ≠ none ∨ e.industry ≠ none) ∧
        (∀ s, e.sector = some s → ¬(s = "N/A" ∨ s = "nan" ∨ s = "NONE")) ∧
        (∀ s, e.industry = some s → ¬(s = "N/A" ∨ s = "nan" ∨ s = "NONE")) := by
  rcases co with _ | e
  · simp [cacheHit]
  · rcases e with ⟨so, io⟩
    simp only [cacheHit, Bool.and_eq_true, entryTruthy_iff]
    constructor
    · rintro ⟨⟨ht, hs⟩, hi⟩
      refine ⟨⟨so, io⟩, rfl, ht, ?_, ?_⟩
      · rintro s rfl
        exact (notSentinel_some s).1 hs
      · rintro s rfl
        exact (notSentinel_some s).1 hi
    · rintro ⟨e, he, ht, hs, hi⟩
      injection he with he2
      subst he2
      refine ⟨⟨ht, ?_⟩, ?_⟩
      · rcases so with _ | s
        · exact notSentinel_none
        · exact (notSentinel_some s).2 (hs s rfl)
      · rcases io with _ | s
        · exact notSentinel_none
        · exact (notSentinel_some s).2 (hi s rfl)

/-- A produced record implies its guard did not fire. -/
theorem calcRow_some_guard (cols : List (String × List PVal)) (qchg : PVal)
    (sh : String → ℚ) (items : List ItemRec) (t : String) (r : BatchRec)
    (h : calcRow cols qchg sh items t = some r) :
    (pisna (rowGet cols 1 t none) || pisna (rowGet cols 61 t none) ||
      pEq0 (rowGet cols 61 t none)) = false := by
  rcases hg : (pisna (rowGet cols 1 t none) || pisna (rowGet cols 61 t none) ||
      pEq0 (rowGet cols 61 t none)) with _ | _
  · rfl
  · rw [calcRow_guard _ _ _ _ _ hg] at h
    exact absurd h (by simp)

theorem pyround_lit1 : pyround 120 2 = 120 := by norm_num [pyround, rhe]

theorem pyround_lit2 : pyround 120000 0 = 120000 := by norm_num [pyround, rhe]

theorem pyround_fifth : pyround (1/5) 4 = 1/5 := by norm_num [pyround, rhe]

/-! ## Evaluation of the concrete scenarios -/

theorem pst_envMcFail_eval :
    (process_single_ticker "M" envMcFail none ⟨[], []⟩).1 =
      some recMcFail := rfl

set_option maxHeartbeats 1000000 in
theorem pst_envShort_eval :
    (process_single_ticker "A" envShort (some benchSeries) ⟨[], []⟩).1 =
      some recShort := by
  norm_num +decide [process_single_ticker, pstCore, lookupEntry, computeScores,
    benchSeries, envShort, recShort, resolveMetadata, cacheHit,
    fetchSectorIndustry, mcapField, iloc]

set_option maxHeartbeats 2000000 in
theorem firstPass_peShort_eval :
    (firstPass peShort ["A"] ⟨[], []⟩).1 = [recShort] := by
  norm_num +decide [firstPass, procBatches, procBatch, chunksOf,
    process_single_ticker, pstCore, lookupEntry, computeScores, benchSeries,
    envShort, recShort, peShort, resolveMetadata, cacheHit,
    fetchSectorIndustry, mcapField, cacheWrite, upsert, iloc]

set_option maxHeartbeats 2000000 in
theorem final_peShort_eval :
    (get_market_cap_and_rs peShort ["A"] ⟨[], []⟩).1 = [recShort] := by
  norm_num +decide [get_market_cap_and_rs, firstPass, procBatches, procBatch,
    chunksOf, process_single_ticker, procRetryBatches, procRetryBatch,
    failedOf, pstCore, lookupEntry, computeScores, benchSeries, peShort,
    envShort, recShort, resolveMetadata, cacheHit, fetchSectorIndustry,
    mcapField, cacheWrite, upsert, iloc, List.dedup, applyRetryRec]

set_option maxHeartbeats 2000000 in
theorem final_peNanB_eval :
    (get_market_cap_and_rs peNanB ["C"] ⟨[], []⟩).1 = [recNanB] := by
  norm_num +decide [get_market_cap_and_rs, firstPass, procBatches, procBatch,
    chunksOf, process_single_ticker, procRetryBatches, procRetryBatch,
    failedOf, pstCore, lookupEntry, computeScores, peNanB, envNanB, recNanB,
    resolveMetadata, cacheHit, fetchSectorIndustry, mcapField, cacheWrite,
    upsert, iloc, retCalc, psub, pdiv, truthy, List.dedup, applyRetryRec]

set_option maxHeartbeats 1000000 in
theorem calcQ0_eval :
    calculate_batch [⟨"A", none, none⟩] (some frameQ0) (fun _ => 1000) =
      [recQ0] := by
  norm_num +decide [calculate_batch, frameEmpty, benchChange, rowGet,
    colLookup, calcRow, iloc, pvalNe0, pisna, pEq0, psub, pdiv, pmul, pround,
    infoMapGet, frameQ0, recQ0, List.filterMap_cons, pyround_zero,
    pyround_lit1, pyround_lit2,
    List.getElem_append_left, List.getElem_replicate,
    List.getElem_append_right, List.getD_eq_getElem?_getD,
    List.getElem?_append, List.getElem?_replicate]

/-! ## Claim theorems -/

/-- C1 (counterexample): a ticker with a single session of history —
fewer than the required window — gets `RS = 0` (defined, not undefined),
is included in the pass's results, and the retry-candidate set is empty,
so it is not retried.  This contradicts the claim that RS is left
undefined, the ticker excluded, and retried. -/
theorem C1_counterexample :
    (peShort.env1 "A").stockClose = some [some 100] ∧
    ([some 100] : List PVal).length < 67 ∧
    (firstPass peShort ["A"] ⟨[], []⟩).1.map (fun r => r.rs) = [some 0] ∧
    failedOf ["A"] (firstPass peShort ["A"] ⟨[], []⟩).1 = [] ∧
    (get_market_cap_and_rs peShort ["A"] ⟨[], []⟩).1.map
      (fun r => r.ticker) = ["A"] := by
  refine ⟨rfl, by norm_num, ?_, ?_, ?_⟩
  · rw [firstPass_peShort_eval]
    rfl
  · rw [firstPass_peShort_eval]
    decide
  · rw [final_peShort_eval]
    rfl

/-- C1 (amended): for every ticker whose own price history has fewer than
67 sessions, any record `process_single_ticker` produces carries
`RS = 0` and `RS5 = 0` exactly (not undefined), and — since an RS of `0`
counts as processed — the ticker is never a retry candidate of any pass
whose results contain that record. -/
theorem C1_claim (t : String) (env : TickerEnv) (qqq : Option (List PVal))
    (c : CacheSt) (s : List PVal) (r : ResultRec)
    (hs : env.stockClose = some s) (hlen : s.length < 67)
    (h : (process_single_ticker t env qqq c).1 = some r) :
    r.rs = some 0 ∧ r.rs5 = some 0 ∧
      ∀ tickers res, r ∈ res → r.ticker ∉ failedOf tickers res := by
  obtain ⟨h1, h2⟩ := pst_scores t env qqq c r s hs h
  rw [computeScores_short s qqq hlen] at h1 h2
  refine ⟨h1, h2, fun tickers res hr => ?_⟩
  refine notMem_failedOf tickers res r hr ?_
  rw [h1]
  rfl

/-- C1 (witness): the amended claim applied to the concrete short-history
scenario. -/
theorem C1_witness :
    recShort.rs = some 0 ∧ recShort.ticker ∉ failedOf ["A"] [recShort] :=
  have h := C1_claim "A" envShort (some benchSeries) ⟨[], []⟩ [some 100]
    recShort rfl (by norm_num) pst_envShort_eval
  ⟨h.1, h.2.2 ["A"] [recShort] (List.mem_singleton_self recShort)⟩

set_option maxHeartbeats 4000000 in
/-- C2 (counterexample): a ticker whose RS is NaN on the first pass and
still NaN on the retry is NOT dropped from the final output — its NaN
first-pass record remains.  This contradicts the claim that failures
still unresolved after the retry are dropped. -/
theorem C2_counterexample :
    failedOf ["B"] (firstPass peNan ["B"] ⟨[], []⟩).1 = ["B"] ∧
    (get_market_cap_and_rs peNan ["B"] ⟨[], []⟩).1.map
      (fun r => r.rs) = [none] := by
  constructor
  all_goals
    norm_num +decide [get_market_cap_and_rs, firstPass, procBatches,
      procBatch, chunksOf, process_single_ticker, procRetryBatches,
      procRetryBatch, failedOf, pstCore, lookupEntry, computeScores, peNan,
      envNan, benchSeries, resolveMetadata, cacheHit, fetchSectorIndustry,
      mcapField, cacheWrite, upsert, iloc, retCalc, psub, pdiv, truthy,
      List.dedup, applyRetryRec]

/-- C2 (amended): the pipeline retries exactly once, on exactly the set of
tickers all of whose first-pass records have a missing/NaN RS (including
tickers with no record at all); a ticker with a first-pass RS of exactly
`0` is never retried; a successful retry removes every accumulated record
of that ticker and appends the fresh record, and keeps all records of
other tickers.  (Unresolved failures that left a NaN first-pass record are
NOT dropped — see the counterexample.) -/
theorem C2_claim :
    (∀ pe tickers c0,
      get_market_cap_and_rs pe tickers c0 =
        procRetryBatches pe.qqq pe.env2 pe.fails2
          (chunksOf 20 (failedOf tickers (firstPass pe tickers c0).1))
          (firstPass pe tickers c0).1 (firstPass pe tickers c0).2) ∧
    (∀ tickers res t, t ∈ failedOf tickers res ↔
      t ∈ tickers ∧ ∀ r ∈ res, r.ticker = t → r.rs = none) ∧
    (∀ tickers res r, r ∈ res → r.rs = some 0 →
      r.ticker ∉ failedOf tickers res) ∧
    (∀ acc r,
      (applyRetryRec acc r).filter (fun x => x.ticker == r.ticker) = [r] ∧
      ∀ x ∈ acc, x.ticker ≠ r.ticker → x ∈ applyRetryRec acc r) :=
  ⟨fun _ _ _ => rfl, mem_failedOf,
   fun tickers res r hr h0 =>
     notMem_failedOf tickers res r hr (by rw [h0]; rfl),
   fun acc r => ⟨applyRetryRec_filter acc r,
     fun x hx hne => applyRetryRec_keeps acc r x hx hne⟩⟩

/-- C2 (witness): the amended claim applied at concrete inputs. -/
theorem C2_witness :
    "B" ∈ failedOf ["B"] [] ∧
    (applyRetryRec [] recMcFail).filter
      (fun x => x.ticker == recMcFail.ticker) = [recMcFail] :=
  ⟨(C2_claim.2.1 ["B"] [] "B").2
     ⟨by simp, fun r hr => absurd hr (by simp)⟩,
   (C2_claim.2.2.2 [] recMcFail).1⟩

/-- C3 (counterexample): a final result list carrying a NaN RS record —
the NaN record of a ticker whose retry also failed survives into the
final output.  This contradicts the claim that no record of the final
result list carries a NaN RS. -/
theorem C3_counterexample :
    (get_market_cap_and_rs peNanB ["C"] ⟨[], []⟩).1.map
      (fun r => r.rs) = [none] := by
  rw [final_peNanB_eval]
  rfl

/-- C3 (amended): every NaN-RS record of the final output is a first-pass
record that the retry failed to replace; the retry step itself only ever
adds records whose RS is present (non-NaN). -/
theorem C3_claim (pe : PipelineEnv) (tickers : List String) (c0 : CacheSt)
    (r : ResultRec) (hr : r ∈ (get_market_cap_and_rs pe tickers c0).1)
    (hnan : r.rs = none) : r ∈ (firstPass pe tickers c0).1 := by
  rcases procRetryBatches_origin pe.qqq pe.env2 pe.fails2
      (chunksOf 20 (failedOf tickers (firstPass pe tickers c0).1))
      (firstPass pe tickers c0).1 (firstPass pe tickers c0).2 r hr with
    h | h
  · exact h
  · rw [hnan] at h
    simp at h

/-- C3 (witness): the amended claim applied to the concrete NaN scenario. -/
theorem C3_witness : recNanB ∈ (firstPass peNanB ["C"] ⟨[], []⟩).1 :=
  C3_claim peNanB ["C"] ⟨[], []⟩ recNanB
    (by rw [final_peNanB_eval]; exact List.mem_singleton_self recNanB) rfl

set_option maxHeartbeats 1000000 in
/-- C4 (counterexample): with a flat benchmark (100 → 100, return exactly
0) and a stock moving 100 → 120, `calculate_batch` computes `RS = 0.2`,
not `0`.  This contradicts the claim that a zero benchmark return forces
`RS = 0` for every ticker. -/
theorem C4_counterexample :
    rowGet frameFlat.cols 1 "QQQ" (some 0) =
      rowGet frameFlat.cols 61 "QQQ" (some 0) ∧
    rowGet frameFlat.cols 61 "QQQ" (some 0) = some 100 ∧
    (calculate_batch [⟨"A", none, none⟩] (some frameFlat)
      (fun _ => 1000)).map (fun r => r.rs) = [some (1/5)] := by
  refine ⟨rfl, rfl, ?_⟩
  norm_num +decide [calculate_batch, frameEmpty, benchChange, rowGet,
    colLookup, calcRow, iloc, pvalNe0, pisna, pEq0, psub, pdiv, pmul, pround,
    infoMapGet, frameFlat, List.filterMap_cons, pyround_fifth,
    List.getElem_append_left, List.getElem_replicate,
    List.getElem_append_right, List.getD_eq_getElem?_getD,
    List.getElem?_append, List.getElem?_replicate]

/-- C4 (amended): the `RS = 0`, no-division-error guarantee is tied to a
degenerate benchmark whose 60-sessions-ago price is exactly `0` (then
`q_chg = 0` and every record's RS is exactly `0`); a flat benchmark at a
nonzero price instead yields a benchmark change of exactly `1`, so each
ticker's RS equals its own 60-session change ratio minus 1 (`0.2` in the
counterexample), not `0`.  No division error occurs in either case. -/
theorem C4_claim (items : List ItemRec) (f : Frame) (sh : String → ℚ) :
    (rowGet f.cols 61 "QQQ" (some 0) = some 0 →
      benchChange f.cols = some 0 ∧
      ∀ r ∈ calculate_batch items (some f) sh, r.rs = some 0) ∧
    (∀ v : ℚ, v ≠ 0 → rowGet f.cols 1 "QQQ" (some 0) = some v →
      rowGet f.cols 61 "QQQ" (some 0) = some v →
      benchChange f.cols = some 1) := by
  constructor
  · intro hq
    have hb := benchChange_prev_zero f.cols hq
    refine ⟨hb, fun r hr => ?_⟩
    obtain ⟨-, -, hrow⟩ := calculate_batch_mem items f sh r hr
    rw [hb] at hrow
    exact calcRow_rs_qchg_zero f.cols sh items r.ticker r hrow
  · exact fun v hv h1 h61 => benchChange_flat f.cols v hv h1 h61

/-- C4 (witness): the amended claim applied to the concrete degenerate
benchmark (60-sessions-ago price `0`): the produced record has `RS = 0`. -/
theorem C4_witness : recQ0.rs = some 0 :=
  ((C4_claim [⟨"A", none, none⟩] frameQ0 (fun _ => 1000)).1 rfl).2 recQ0
    (by rw [calcQ0_eval]; exact List.mem_singleton_self recQ0)

/-- C5 (counterexample): in `calculate_batch` a failed shares fetch
(`shares = 0`) produces an output record whose market-cap field is the
number `0` — not an `"N/A"` marker.  This contradicts the claim that a
failed market-cap retrieval never yields zero in the output record. -/
theorem C5_counterexample :
    (calculate_batch [⟨"Z", none, none⟩] (some frameZeroShares)
      (fun _ => 0)).map (fun r => (r.ticker, r.mcap, r.shares)) =
      [("Z", some 0, 0)] := by
  norm_num +decide [calculate_batch, frameEmpty, benchChange, rowGet,
    colLookup, calcRow, iloc, pvalNe0, pisna, pEq0, psub, pdiv, pmul, pround,
    infoMapGet, frameZeroShares, List.filterMap_cons, pyround_zero,
    List.getElem_append_left, List.getElem_replicate,
    List.getElem_append_right, List.getD_eq_getElem?_getD,
    List.getElem?_append, List.getElem?_replicate]

/-- C5 (amended): in `process_single_ticker` the market-cap field is a
function of the `fast_info` fetch alone (fetched fresh, independent of the
cache state), and a failed fetch, a `None` value, or a `0` value all
produce the `"N/A"` marker, never a formatted zero; in `calculate_batch`,
however, a failed shares fetch yields a numeric market cap of exactly
`0` in the output record. -/
theorem C5_claim :
    (∀ t env qqq c r, (process_single_ticker t env qqq c).1 = some r →
      r.mcap = mcapField env.mcFetch) ∧
    (∀ mc, mc = none ∨ mc = some none ∨ mc = some (some 0) →
      mcapField mc = MCapField.na) ∧
    (∀ q : ℚ, q ≠ 0 →
      mcapField (some (some q)) = MCapField.fmtB (q / 1000000000)) ∧
    (∀ items f sh r, r ∈ calculate_batch items (some f) sh →
      sh r.ticker = 0 → r.mcap = some 0) := by
  refine ⟨pst_mcap, ?_, ?_, ?_⟩
  · rintro mc (rfl | rfl | rfl)
    · rfl
    · rfl
    · simp [mcapField]
  · intro q hq
    simp [mcapField, hq]
  · intro items f sh r hr hsh
    obtain ⟨-, -, hrow⟩ := calculate_batch_mem items f sh r hr
    obtain ⟨-, hmcap⟩ := calcRow_mcap _ _ _ _ _ _ hrow
    have hguard := calcRow_some_guard _ _ _ _ _ _ hrow
    rcases hcur : rowGet f.cols 1 r.ticker none with _ | cq
    · rw [hcur] at hguard
      simp [pisna] at hguard
    · rw [hcur, hsh] at hmcap
      rw [hmcap]
      simp [pmul, pround, pyround_zero]

/-- C5 (witness): the amended claim applied to the concrete scenario with
a raising `fast_info` call: the record's market cap is `"N/A"`. -/
theorem C5_witness :
    recMcFail.mcap = MCapField.na ∧ mcapField envMcFail.mcFetch = MCapField.na :=
  have h1 := C5_claim.1 "M" envMcFail none ⟨[], []⟩ recMcFail
    pst_envMcFail_eval
  have h2 := C5_claim.2.1 none (Or.inl rfl)
  ⟨h1.trans h2, h2⟩

/-- C6 (counterexample): a cache entry whose `Sector` and `Industry` are
the empty string is treated as VALID by the code — it short-circuits the
fetch (the output reuses the empty strings even though the fetch would
have returned Technology/Software).  This contradicts the claim that an
empty-string field is a sentinel forcing a cache miss. -/
theorem C6_counterexample :
    cacheHit (some ⟨some "", some ""⟩) = true ∧
    (process_single_ticker "A" envC6 none cacheEmptyStr).1.map
      (fun r => (r.sector, r.industry)) = some ("", "") := by
  exact ⟨by decide, rfl⟩

/-- C6 (amended): a cache entry short-circuits the metadata fetch iff the
entry is a nonempty object and neither of its `Sector`/`Industry` fields,
when present, equals `"N/A"`, `"nan"`, or `"NONE"`; an absent field passes
the test, and the empty string and `"NULL"` are NOT sentinels.  On a hit,
`process_single_ticker` is independent of the fetch outcome. -/
theorem C6_claim :
    (∀ co, cacheHit co = true ↔
      ∃ e, co = some e ∧ (e.sector ≠ none ∨ e.industry ≠ none) ∧
        (∀ s, e.sector = some s → ¬(s = "N/A" ∨ s = "nan" ∨ s = "NONE")) ∧
        (∀ s, e.industry = some s →
          ¬(s = "N/A" ∨ s = "nan" ∨ s = "NONE"))) ∧
    (∀ t sc f1 f2 mc qqq c, cacheHit (lookupEntry c.entries t) = true →
      process_single_ticker t ⟨sc, f1, mc⟩ qqq c =
        process_single_ticker t ⟨sc, f2, mc⟩ qqq c) :=
  ⟨cacheHit_iff, pst_hit_indep⟩

/-- C6 (witness): the amended claim applied at concrete inputs. -/
theorem C6_witness :
    (∃ e, (some (⟨some "Technology", some "Software"⟩ : CacheEntry)) = some e ∧
      (e.sector ≠ none ∨ e.industry ≠ none) ∧
      (∀ s, e.sector = some s → ¬(s = "N/A" ∨ s = "nan" ∨ s = "NONE")) ∧
      (∀ s, e.industry = some s → ¬(s = "N/A" ∨ s = "nan" ∨ s = "NONE"))) ∧
    process_single_ticker "A"
        ⟨some [some 5], some ⟨none, some "X", some "Y"⟩, some none⟩ none
        cacheEmptyStr =
      process_single_ticker "A" ⟨some [some 5], none, some none⟩ none
        cacheEmptyStr :=
  ⟨(C6_claim.1 (some ⟨some "Technology", some "Software"⟩)).1 (by decide),
   C6_claim.2 "A" (some [some 5]) (some ⟨none, some "X", some "Y"⟩) none
     (some none) none cacheEmptyStr (by decide)⟩

/-- C8: the set of tickers present after the retry pass is a superset of
the set present after the first pass alone — the retry only adds new
records or replaces a ticker's records, never removes a ticker. -/
theorem C8_claim (pe : PipelineEnv) (tickers : List String) (c0 : CacheSt)
    (t : String)
    (h : t ∈ (firstPass pe tickers c0).1.map (fun r => r.ticker)) :
    t ∈ (get_market_cap_and_rs pe tickers c0).1.map (fun r => r.ticker) :=
  procRetryBatches_ticker_mem pe.qqq pe.env2 pe.fails2
    (chunksOf 20 (failedOf tickers (firstPass pe tickers c0).1))
    (firstPass pe tickers c0).1 (firstPass pe tickers c0).2 t h

/-- C8 (witness): the superset invariant applied to the concrete
single-ticker run. -/
theorem C8_witness :
    "A" ∈ (get_market_cap_and_rs peShort ["A"] ⟨[], []⟩).1.map
      (fun r => r.ticker) :=
  C8_claim peShort ["A"] ⟨[], []⟩ "A"
    (by rw [firstPass_peShort_eval]; decide)

/-- C9 (counterexample): when the ticker source cannot be loaded (the
reader raises), the loader swallows the exception and the endpoint
answers success with an empty list — no run-level error is surfaced.
This contradicts the claim that a source-load failure is surfaced to the
caller as a run-level error. -/
theorem C9_counterexample :
    get_all_tickers none = ApiResp.success [] 0 := rfl

/-- C9 (amended): a ticker-source load failure is swallowed by the loader
(which logs and returns the empty list); `/api/tickers` then reports
success with zero tickers, and no input whatsoever makes the endpoint
produce a run-level error response. -/
theorem C9_claim (fr : Option (List String)) (m : String) :
    get_tickers_from_excel none = [] ∧
    get_all_tickers none = ApiResp.success [] 0 ∧
    get_all_tickers fr ≠ ApiResp.error m := by
  refine ⟨rfl, rfl, ?_⟩
  unfold get_all_tickers
  intro h
  exact ApiResp.noConfusion h

/-- C9 (witness): the amended claim applied at a concrete input. -/
theorem C9_witness :
    get_all_tickers (some ["aapl"]) ≠ ApiResp.error "boom" :=
  (C9_claim (some ["aapl"]) "boom").2.2

/-- C10: in the stateless batch computation, a ticker whose latest or
60-sessions-ago price is missing/NaN, or whose 60-sessions-ago price is
`0`, is silently omitted from the returned results (no sentinel record,
no error — the function is total); and an empty downloaded frame, or one
with fewer than 61 rows, makes the whole batch return the empty list. -/
theorem C10_claim :
    (∀ (items : List ItemRec) (sh : String → ℚ) (f : Frame),
      frameEmpty f = true → calculate_batch items (some f) sh = []) ∧
    (∀ (items : List ItemRec) (sh : String → ℚ) (f : Frame),
      f.nrows < 61 → calculate_batch items (some f) sh = []) ∧
    (∀ (items : List ItemRec) (sh : String → ℚ) (f : Frame) (t : String),
      (pisna (rowGet f.cols 1 t none) = true ∨
        pisna (rowGet f.cols 61 t none) = true ∨
        rowGet f.cols 61 t none = some 0) →
      t ∉ (calculate_batch items (some f) sh).map (fun r => r.ticker)) := by
  refine ⟨?_, ?_, ?_⟩
  · intro items sh f hf
    rw [calculate_batch_some, if_pos hf]
  · intro items sh f hn
    rw [calculate_batch_some]
    by_cases hf : frameEmpty f = true
    · rw [if_pos hf]
    · rw [if_neg hf, if_pos hn]
  · intro items sh f t hbad hmem
    rcases List.mem_map.1 hmem with ⟨r, hr, hticker⟩
    obtain ⟨-, -, hrow⟩ := calculate_batch_mem items f sh r hr
    rw [hticker] at hrow
    have hguard : (pisna (rowGet f.cols 1 t none) ||
        pisna (rowGet f.cols 61 t none) ||
        pEq0 (rowGet f.cols 61 t none)) = true := by
      rcases hbad with h | h | h
      · simp [h]
      · simp [h]
      · simp [h, pEq0]
    rw [calcRow_guard _ _ _ _ _ hguard] at hrow
    exact absurd hrow (by simp)

/-- C10 (witness): the three guards applied at concrete inputs: an empty
frame, a 1-row frame, and a ticker whose 60-sessions-ago price is `0`. -/
theorem C10_witness :
    calculate_batch [⟨"A", none, none⟩] (some ⟨[], 0⟩) (fun _ => 1) = [] ∧
    calculate_batch [⟨"A", none, none⟩]
      (some ⟨[("QQQ", [some 1])], 1⟩) (fun _ => 1) = [] ∧
    "W" ∉ (calculate_batch [⟨"W", none, none⟩] (some frameZeroPrev)
      (fun _ => 1)).map (fun r => r.ticker) :=
  ⟨C10_claim.1 _ _ _ rfl,
   C10_claim.2.1 _ _ _ (by decide),
   C10_claim.2.2 _ _ _ "W" (Or.inr (Or.inr rfl))⟩

/-! ## Cache-dictionary lemmas -/

theorem lookupEntry_append (l1 l2 : List (String × CacheEntry)) (k : String) :
    lookupEntry (l1 ++ l2) k =
      match lookupEntry l1 k with
      | some v => some v
      | none => lookupEntry l2 k := by
  induction l1 with
  | nil => rfl
  | cons p rest ih =>
    rcases p with ⟨k1, v1⟩
    rw [List.cons_append, lookupEntry, lookupEntry]
    by_cases hk : k1 = k
    · rw [if_pos hk, if_pos hk]
    · rw [if_neg hk, if_neg hk]
      exact ih

theorem lookupEntry_eq_none_iff (l : List (String × CacheEntry)) (k : String) :
    lookupEntry l k = none ↔ k ∉ l.map Prod.fst := by
  induction l with
  | nil => simp [lookupEntry]
  | cons p rest ih =>
    rcases p with ⟨k1, v1⟩
    by_cases hk : k1 = k
    · subst hk
      simp [lookupEntry]
    · rw [lookupEntry, if_neg hk]
      simp only [List.map_cons, List.mem_cons, ih]
      constructor
      · intro h hor
        rcases hor with h1 | h2
        · exact hk h1.symm
        · exact h h2
      · intro h h2
        exact h (Or.inr h2)

theorem lookup_map_overwrite (l : List (String × CacheEntry)) (k : String)
    (v : CacheEntry) (h : (lookupEntry l k).isSome = true) :
    lookupEntry (l.map (fun p => if p.1 = k then (k, v) else p)) k =
      some v := by
  induction l with
  | nil => simp [lookupEntry] at h
  | cons p rest ih =>
    rcases p with ⟨k1, v1⟩
    rw [List.map_cons]
    by_cases hk : k1 = k
    · rw [show (if (k1, v1).1 = k then (k, v) else (k1, v1)) = (k, v) from
        if_pos hk]
      rw [lookupEntry, if_pos rfl]
    · rw [show (if (k1, v1).1 = k then (k, v) else (k1, v1)) = (k1, v1) from
        if_neg hk]
      rw [lookupEntry, if_neg hk]
      rw [lookupEntry, if_neg hk] at h
      exact ih h

theorem lookup_map_overwrite_ne (l : List (String × CacheEntry))
    (k k' : String) (v : CacheEntry) (h : k' ≠ k) :
    lookupEntry (l.map (fun p => if p.1 = k then (k, v) else p)) k' =
      lookupEntry l k' := by
  induction l with
  | nil => rfl
  | cons p rest ih =>
    rcases p with ⟨k1, v1⟩
    rw [List.map_cons]
    by_cases hk : k1 = k
    · rw [show (if (k1, v1).1 = k then (k, v) else (k1, v1)) = (k, v) from
        if_pos hk]
      rw [lookupEntry, if_neg (fun hh => h hh.symm), lookupEntry,
        if_neg (fun hh => h (hk ▸ hh).symm)]
      exact ih
    · rw [show (if (k1, v1).1 = k then (k, v) else (k1, v1)) = (k1, v1) from
        if_neg hk]
      rw [lookupEntry, lookupEntry]
      by_cases hk' : k1 = k'
      · rw [if_pos hk', if_pos hk']
      · rw [if_neg hk', if_neg hk']
        exact ih

theorem lookupEntry_upsert_self (l : List (String × CacheEntry)) (k : String)
    (v : CacheEntry) : lookupEntry (upsert l k v) k = some v := by
  unfold upsert
  by_cases h : (lookupEntry l k).isSome = true
  · rw [if_pos h]
    exact lookup_map_overwrite l k v h
  · rw [if_neg h]
    rw [lookupEntry_append]
    rcases hl : lookupEntry l k with _ | v0
    · rw [lookupEntry, if_pos rfl]
    · rw [hl] at h
      simp at h

theorem lookupEntry_upsert_ne (l : List (String × CacheEntry)) (k k' : String)
    (v : CacheEntry) (h : k' ≠ k) :
    lookupEntry (upsert l k v) k' = lookupEntry l k' := by
  unfold upsert
  split
  · exact lookup_map_overwrite_ne l k k' v h
  · rw [lookupEntry_append]
    rcases hl : lookupEntry l k' with _ | v0
    · rw [lookupEntry, if_neg (fun hh => h hh.symm)]
      rfl
    · rfl

theorem upsert_keysNodup (l : List (String × CacheEntry)) (k : String)
    (v : CacheEntry) (h : keysNodup l) : keysNodup (upsert l k v) := by
  unfold upsert
  split
  · unfold keysNodup
    have : (l.map (fun p => if p.1 = k then (k, v) else p)).map Prod.fst =
        l.map Prod.fst := by
      rw [List.map_map]
      refine List.map_congr_left (fun p hp => ?_)
      by_cases hk : p.1 = k
      · simp [hk]
      · simp [hk]
    rw [this]
    exact h
  · unfold keysNodup
    rw [List.map_append]
    next hnone =>
      rw [List.nodup_append]
      refine ⟨h, List.nodup_singleton _, ?_⟩
      intro a ha hb
      simp only [List.map_cons, List.map_nil, List.mem_singleton] at hb
      subst hb
      have hN : lookupEntry l a = none := by
        rcases hx : lookupEntry l a with _ | v0
        · rfl
        · rw [hx] at hnone
          simp at hnone
      exact (lookupEntry_eq_none_iff l a).1 hN ha

theorem map_overwrite_not_mem (l : List (String × CacheEntry)) (k : String)
    (v : CacheEntry) (h : k ∉ l.map Prod.fst) :
    l.map (fun p => if p.1 = k then (k, v) else p) = l := by
  induction l with
  | nil => rfl
  | cons p rest ih =>
    rcases p with ⟨k1, v1⟩
    simp only [List.map_cons, List.mem_cons] at h
    push_neg at h
    rw [List.map_cons]
    rw [show (if (k1, v1).1 = k then (k, v) else (k1, v1)) = (k1, v1) from
      if_neg (fun hh => h.1 hh.symm)]
    rw [ih h.2]

theorem upsert_eq_self (l : List (String × CacheEntry)) (k : String)
    (v : CacheEntry) (hk : keysNodup l) (hv : lookupEntry l k = some v) :
    upsert l k v = l := by
  unfold upsert
  rw [if_pos (by rw [hv]; rfl)]
  induction l with
  | nil => simp [lookupEntry] at hv
  | cons p rest ih =>
    rcases p with ⟨k1, v1⟩
    rw [List.map_cons]
    by_cases hkk : k1 = k
    · subst hkk
      rw [lookupEntry, if_pos rfl] at hv
      injection hv with hv2
      subst hv2
      rw [show (if (k1, v1).1 = k1 then (k1, v1) else (k1, v1)) = (k1, v1)
        from if_pos rfl]
      have hnotin : k1 ∉ rest.map Prod.fst := by
        unfold keysNodup at hk
        rw [List.map_cons, List.nodup_cons] at hk
        exact hk.1
      rw [map_overwrite_not_mem rest k1 v1 hnotin]
    · rw [show (if (k1, v1).1 = k then (k, v) else (k1, v1)) = (k1, v1) from
        if_neg hkk]
      rw [lookupEntry, if_neg hkk] at hv
      have hkrest : keysNodup rest := by
        unfold keysNodup at hk ⊢
        rw [List.map_cons, List.nodup_cons] at hk
        exact hk.2
      rw [ih hkrest hv]

/-! ## Per-ticker cache-interaction lemmas -/

theorem pst_fst (t : String) (env : TickerEnv) (qqq : Option (List PVal))
    (c : CacheSt) :
    (process_single_ticker t env qqq c).1 =
      (pstCore t env qqq (lookupEntry c.entries t)).1 := rfl

theorem pst_eq (t : String) (env : TickerEnv) (qqq : Option (List PVal))
    (c : CacheSt) :
    process_single_ticker t env qqq c =
      ((pstCore t env qqq (lookupEntry c.entries t)).1,
       match (pstCore t env qqq (lookupEntry c.entries t)).2 with
       | some w => cacheWrite c t w
       | none => c) := rfl

theorem pst_snd_lookup_self (t : String) (env : TickerEnv)
    (qqq : Option (List PVal)) (c : CacheSt) :
    lookupEntry ((process_single_ticker t env qqq c).2).entries t =
      entryAfter t env qqq (lookupEntry c.entries t) := by
  rw [pst_eq]
  unfold entryAfter
  rcases hw : (pstCore t env qqq (lookupEntry c.entries t)).2 with _ | w
  · rfl
  · exact lookupEntry_upsert_self c.entries t w

theorem pst_snd_lookup_ne (t : String) (env : TickerEnv)
    (qqq : Option (List PVal)) (c : CacheSt) (k : String) (h : k ≠ t) :
    lookupEntry ((process_single_ticker t env qqq c).2).entries k =
      lookupEntry c.entries k := by
  rw [pst_eq]
  rcases hw : (pstCore t env qqq (lookupEntry c.entries t)).2 with _ | w
  · rfl
  · exact lookupEntry_upsert_ne c.entries t k w h

theorem pst_snd_keys (t : String) (env : TickerEnv)
    (qqq : Option (List PVal)) (c : CacheSt) (h : keysNodup c.entries) :
    keysNodup ((process_single_ticker t env qqq c).2).entries := by
  rw [pst_eq]
  rcases hw : (pstCore t env qqq (lookupEntry c.entries t)).2 with _ | w
  · exact h
  · exact upsert_keysNodup c.entries t w h

/-- A write can only happen in the cache-miss branch, and it writes a
fully-populated entry produced by the fetch. -/
theorem resolveMetadata_write_facts (f : Option TickerInfo)
    (eo : Option CacheEntry) (s i : String) (w : CacheEntry)
    (h : resolveMetadata f eo = MetaOut.ok s i (some w)) :
    cacheHit eo = false ∧
      ∃ info, f = some info ∧ fetchSectorIndustry info = (s, i) ∧
        w = ⟨some s, some i⟩ := by
  unfold resolveMetadata at h
  by_cases hhit : cacheHit eo = true
  · rw [if_pos hhit] at h
    exfalso
    rcases eo with _ | e
    · exact MetaOut.noConfusion h
    · rcases e with ⟨so, io⟩
      rcases so with _ | s0 <;> rcases io with _ | i0
      all_goals simp only at h
      all_goals first
        | exact MetaOut.noConfusion h
        | (injection h with h1 h2 h3; exact Option.noConfusion h3)
  · rw [if_neg hhit] at h
    refine ⟨by simpa using hhit, ?_⟩
    rcases f with _ | info
    · simp only at h
      injection h with h1 h2 h3
      exact absurd h3 (by simp)
    · simp only at h
      injection h with h1 h2 h3
      injection h3 with h4
      refine ⟨info, rfl, by rw [Prod.ext_iff]; exact ⟨h1, h2⟩, ?_⟩
      rw [← h1, ← h2]
      exact h4.symm

theorem pstCore_eq (t : String) (env : TickerEnv) (qqq : Option (List PVal))
    (eo : Option CacheEntry) :
    pstCore t env qqq eo =
      match env.stockClose with
      | none => (none, none)
      | some s =>
        if s.isEmpty then (none, none)
        else
          match resolveMetadata env.infoFetch eo with
          | MetaOut.keyErr => (none, none)
          | MetaOut.ok sec ind wr =>
            (some { ticker := t, price := iloc s 1,
                    mcap := mcapField env.mcFetch,
                    rs := (computeScores s qqq).1,
                    rs5 := (computeScores s qqq).2,
                    sector := sec, industry := ind }, wr) := rfl

theorem pstCore_none (t : String) (env : TickerEnv) (qqq : Option (List PVal))
    (eo : Option CacheEntry) (h : env.stockClose = none) :
    pstCore t env qqq eo = (none, none) := by
  rw [pstCore_eq, h]

theorem pstCore_some (t : String) (env : TickerEnv) (qqq : Option (List PVal))
    (eo : Option CacheEntry) (s : List PVal) (h : env.stockClose = some s) :
    pstCore t env qqq eo =
      if s.isEmpty then (none, none)
      else
        match resolveMetadata env.infoFetch eo with
        | MetaOut.keyErr => (none, none)
        | MetaOut.ok sec ind wr =>
          (some { ticker := t, price := iloc s 1,
                  mcap := mcapField env.mcFetch,
                  rs := (computeScores s qqq).1,
                  rs5 := (computeScores s qqq).2,
                  sector := sec, industry := ind }, wr) := by
  rw [pstCore_eq, h]

/-- A cache write only ever happens on a cache miss. -/
theorem pstCore_write_miss (t : String) (env : TickerEnv)
    (qqq : Option (List PVal)) (eo : Option CacheEntry) (w : CacheEntry)
    (h : (pstCore t env qqq eo).2 = some w) : cacheHit eo = false := by
  rcases hsc : env.stockClose with _ | s
  · rw [pstCore_none t env qqq eo hsc] at h
    exact Option.noConfusion h
  · rw [pstCore_some t env qqq eo s hsc] at h
    by_cases hse : s.isEmpty
    · rw [if_pos hse] at h
      exact Option.noConfusion h
    · rw [if_neg hse] at h
      rcases hrm : resolveMetadata env.infoFetch eo with _ | ⟨sec, ind, wr⟩
      · rw [hrm] at h
        exact Option.noConfusion h
      · rw [hrm] at h
        have hwr : wr = some w := h
        rw [hwr] at hrm
        exact (resolveMetadata_write_facts env.infoFetch eo sec ind w hrm).1

/-- One `process_single_ticker` call drives the entry into a fixpoint: a
second call with the same environment leaves the entry unchanged and
produces the same record. -/
theorem pst_stable_next (t : String) (env : TickerEnv)
    (qqq : Option (List PVal)) (eo : Option CacheEntry) :
    StableAt t env qqq (entryAfter t env qqq eo) ∧
    (pstCore t env qqq (entryAfter t env qqq eo)).1 =
      (pstCore t env qqq eo).1 := by
  rcases hw : (pstCore t env qqq eo).2 with _ | w
  · have he : entryAfter t env qqq eo = eo := by
      unfold entryAfter
      rw [hw]
    rw [he]
    constructor
    · unfold StableAt entryAfter
      rw [hw]
    · rfl
  · have he : entryAfter t env qqq eo = some w := by
      unfold entryAfter
      rw [hw]
    rcases hsc : env.stockClose with _ | s
    · rw [pstCore_none t env qqq eo hsc] at hw
      exact absurd hw (by simp)
    · rw [pstCore_some t env qqq eo s hsc] at hw
      by_cases hse : s.isEmpty
      · rw [if_pos hse] at hw
        exact absurd hw (by simp)
      · rw [if_neg hse] at hw
        rcases hrm : resolveMetadata env.infoFetch eo with _ | ⟨sec, ind, wr⟩
        · rw [hrm] at hw
          exact absurd hw (by simp)
        · rw [hrm] at hw
          have hwr : wr = some w := hw
          rw [hwr] at hrm
          obtain ⟨hmiss, info, hf, hsi, hwshape⟩ :=
            resolveMetadata_write_facts env.infoFetch eo sec ind w hrm
          subst hwshape
          have hres2 : ∃ wr2,
              resolveMetadata env.infoFetch
                (some ⟨some sec, some ind⟩) = MetaOut.ok sec ind wr2 ∧
              (wr2 = none ∨ wr2 = some ⟨some sec, some ind⟩) := by
            unfold resolveMetadata
            by_cases hhit : cacheHit (some ⟨some sec, some ind⟩) = true
            · rw [if_pos hhit]
              exact ⟨none, rfl, Or.inl rfl⟩
            · rw [if_neg hhit]
              rw [hf]
              refine ⟨some ⟨some sec, some ind⟩, ?_, Or.inr rfl⟩
              simp only [hsi]
          obtain ⟨wr2, hres2eq, hwr2⟩ := hres2
          rw [he]
          constructor
          · unfold StableAt entryAfter
            rw [pstCore_some t env qqq (some ⟨some sec, some ind⟩) s hsc,
              if_neg hse, hres2eq]
            rcases hwr2 with rfl | rfl
            · rfl
            · rfl
          · rw [pstCore_some t env qqq (some ⟨some sec, some ind⟩) s hsc,
              if_neg hse, hres2eq,
              pstCore_some t env qqq eo s hsc, if_neg hse, hrm]

/-! ## Batch-fold characterisation -/

theorem procBatch_fst_cons (qqq : Option (List PVal))
    (env : String → TickerEnv) (t : String) (ts : List String) (c : CacheSt) :
    (procBatch qqq env (t :: ts) c).1 =
      (match (process_single_ticker t (env t) qqq c).1 with
       | some rec =>
         rec :: (procBatch qqq env ts
           (process_single_ticker t (env t) qqq c).2).1
       | none =>
         (procBatch qqq env ts (process_single_ticker t (env t) qqq c).2).1)
      := rfl

theorem procBatch_snd_cons (qqq : Option (List PVal))
    (env : String → TickerEnv) (t : String) (ts : List String) (c : CacheSt) :
    (procBatch qqq env (t :: ts) c).2 =
      (procBatch qqq env ts (process_single_ticker t (env t) qqq c).2).2 :=
  rfl

theorem procBatch_lookup_notmem (qqq : Option (List PVal))
    (env : String → TickerEnv) (ts : List String) (c : CacheSt) (k : String)
    (h : k ∉ ts) :
    lookupEntry ((procBatch qqq env ts c).2).entries k =
      lookupEntry c.entries k := by
  induction ts generalizing c with
  | nil => rfl
  | cons t ts ih =>
    rw [procBatch_snd_cons]
    have h1 : k ≠ t ∧ k ∉ ts := by
      rw [List.mem_cons] at h
      push_neg at h
      exact h
    rw [ih (process_single_ticker t (env t) qqq c).2 h1.2]
    exact pst_snd_lookup_ne t (env t) qqq c k h1.1

theorem procBatch_lookup_mem (qqq : Option (List PVal))
    (env : String → TickerEnv) (ts : List String) (c : CacheSt) (t : String)
    (hnd : ts.Nodup) (ht : t ∈ ts) :
    lookupEntry ((procBatch qqq env ts c).2).entries t =
      entryAfter t (env t) qqq (lookupEntry c.entries t) := by
  induction ts generalizing c with
  | nil => exact absurd ht (by simp)
  | cons u ts ih =>
    rw [List.nodup_cons] at hnd
    rw [procBatch_snd_cons]
    rcases List.mem_cons.1 ht with rfl | hmem
    · rw [procBatch_lookup_notmem qqq env ts _ t hnd.1]
      exact pst_snd_lookup_self t (env t) qqq c
    · have hne : t ≠ u := fun hh => hnd.1 (hh ▸ hmem)
      rw [ih (process_single_ticker u (env u) qqq c).2 hnd.2 hmem]
      rw [pst_snd_lookup_ne u (env u) qqq c t hne]

theorem procBatch_keys (qqq : Option (List PVal))
    (env : String → TickerEnv) (ts : List String) (c : CacheSt)
    (h : keysNodup c.entries) :
    keysNodup ((procBatch qqq env ts c).2).entries := by
  induction ts generalizing c with
  | nil => exact h
  | cons t ts ih =>
    rw [procBatch_snd_cons]
    exact ih _ (pst_snd_keys t (env t) qqq c h)

theorem procBatch_res (qqq : Option (List PVal)) (env : String → TickerEnv)
    (ts : List String) (c : CacheSt) (hnd : ts.Nodup) :
    (procBatch qqq env ts c).1 =
      ts.filterMap
        (fun t => (pstCore t (env t) qqq (lookupEntry c.entries t)).1) := by
  induction ts generalizing c with
  | nil => rfl
  | cons t ts ih =>
    rw [List.nodup_cons] at hnd
    rw [procBatch_fst_cons, List.filterMap_cons]
    have hrest : (procBatch qqq env ts
        (process_single_ticker t (env t) qqq c).2).1 =
        ts.filterMap
          (fun s => (pstCore s (env s) qqq (lookupEntry c.entries s)).1) := by
      rw [ih _ hnd.2]
      refine List.filterMap_congr (fun s hs => ?_)
      have hne : s ≠ t := fun hh => hnd.1 (hh ▸ hs)
      rw [pst_snd_lookup_ne t (env t) qqq c s hne]
    rw [hrest, pst_fst]
    rcases (pstCore t (env t) qqq (lookupEntry c.entries t)).1 with _ | rec
    · rfl
    · rfl

theorem procBatch_stable (qqq : Option (List PVal))
    (env : String → TickerEnv) (ts : List String) (c : CacheSt)
    (hk : keysNodup c.entries)
    (hst : ∀ t ∈ ts, StableAt t (env t) qqq (lookupEntry c.entries t)) :
    ((procBatch qqq env ts c).2).entries = c.entries ∧
    ∃ w, ((procBatch qqq env ts c).2).wlog = c.wlog ++ w ∧
      ∀ k ∈ w, cacheHit (lookupEntry c.entries k) = false := by
  induction ts generalizing c with
  | nil => exact ⟨rfl, [], (List.append_nil _).symm, by simp⟩
  | cons t ts ih =>
    rw [procBatch_snd_cons]
    rcases hw : (pstCore t (env t) qqq (lookupEntry c.entries t)).2 with _ | w
    · have hc2 : (process_single_ticker t (env t) qqq c).2 = c := by
        rw [pst_eq, hw]
      rw [hc2]
      exact ih c hk (fun s hs => hst s (List.mem_cons_of_mem t hs))
    · have hstt := hst t (List.mem_cons_self t ts)
      have hlook : lookupEntry c.entries t = some w := by
        unfold StableAt entryAfter at hstt
        rw [hw] at hstt
        exact hstt.symm
      have hc2 : (process_single_ticker t (env t) qqq c).2 =
          ⟨c.entries, c.wlog ++ [t]⟩ := by
        rw [pst_eq, hw]
        show cacheWrite c t w = ⟨c.entries, c.wlog ++ [t]⟩
        unfold cacheWrite
        rw [upsert_eq_self c.entries t w hk hlook]
      rw [hc2]
      obtain ⟨he, w2, hwlog, hinv⟩ :=
        ih ⟨c.entries, c.wlog ++ [t]⟩ hk
          (fun s hs => hst s (List.mem_cons_of_mem t hs))
      refine ⟨he, t :: w2, ?_, ?_⟩
      · rw [hwlog]
        simp
      · intro k hkmem
        rcases List.mem_cons.1 hkmem with rfl | hk2
        · exact pstCore_write_miss k (env k) qqq _ w (hlook ▸ hw)
        · exact hinv k hk2

theorem effTickers_nil (fails : List String → Bool) :
    effTickers fails [] = [] := rfl

theorem effTickers_cons (fails : List String → Bool) (b : List String)
    (bs : List (List String)) :
    effTickers fails (b :: bs) =
      if fails b then effTickers fails bs else b ++ effTickers fails bs := by
  unfold effTickers
  rw [List.filter_cons]
  by_cases hb : fails b = true
  · simp [hb]
  · simp [hb]

theorem procBatches_cons (qqq : Option (List PVal))
    (env : String → TickerEnv) (fails : List String → Bool)
    (b : List String) (bs : List (List String)) (c : CacheSt) :
    procBatches qqq env fails (b :: bs) c =
      if fails b then procBatches qqq env fails bs c
      else ((procBatch qqq env b c).1 ++
        (procBatches qqq env fails bs (procBatch qqq env b c).2).1,
        (procBatches qqq env fails bs (procBatch qqq env b c).2).2) := rfl

theorem procBatches_lookup_notmem (qqq : Option (List PVal))
    (env : String → TickerEnv) (fails : List String → Bool)
    (bs : List (List String)) (c : CacheSt) (k : String)
    (h : k ∉ effTickers fails bs) :
    lookupEntry ((procBatches qqq env fails bs c).2).entries k =
      lookupEntry c.entries k := by
  induction bs generalizing c with
  | nil => rfl
  | cons b bs ih =>
    rw [effTickers_cons] at h
    rw [procBatches_cons]
    by_cases hb : fails b = true
    · rw [if_pos hb]
      rw [if_pos hb] at h
      exact ih c h
    · rw [if_neg hb]
      rw [if_neg hb] at h
      rw [List.mem_append] at h
      push_neg at h
      show lookupEntry ((procBatches qqq env fails bs
        (procBatch qqq env b c).2).2).entries k = _
      rw [ih _ h.2]
      exact procBatch_lookup_notmem qqq env b c k h.1

theorem procBatches_lookup_mem (qqq : Option (List PVal))
    (env : String → TickerEnv) (fails : List String → Bool)
    (bs : List (List String)) (c : CacheSt) (t : String)
    (hnd : (effTickers fails bs).Nodup) (ht : t ∈ effTickers fails bs) :
    lookupEntry ((procBatches qqq env fails bs c).2).entries t =
      entryAfter t (env t) qqq (lookupEntry c.entries t) := by
  induction bs generalizing c with
  | nil => exact absurd ht (by simp [effTickers_nil])
  | cons b bs ih =>
    rw [effTickers_cons] at hnd ht
    rw [procBatches_cons]
    by_cases hb : fails b = true
    · rw [if_pos hb]
      rw [if_pos hb] at hnd ht
      exact ih c hnd ht
    · rw [if_neg hb]
      rw [if_neg hb] at hnd ht
      rw [List.nodup_append] at hnd
      show lookupEntry ((procBatches qqq env fails bs
        (procBatch qqq env b c).2).2).entries t = _
      rcases List.mem_append.1 ht with hmem | hmem
      · rw [procBatches_lookup_notmem qqq env fails bs _ t
          (fun hh => hnd.2.2 hmem hh)]
        exact procBatch_lookup_mem qqq env b c t hnd.1 hmem
      · rw [ih _ hnd.2.1 hmem]
        rw [procBatch_lookup_notmem qqq env b c t
          (fun hh => hnd.2.2 hh hmem)]

theorem procBatches_keys (qqq : Option (List PVal))
    (env : String → TickerEnv) (fails : List String → Bool)
    (bs : List (List String)) (c : CacheSt) (h : keysNodup c.entries) :
    keysNodup ((procBatches qqq env fails bs c).2).entries := by
  induction bs generalizing c with
  | nil => exact h
  | cons b bs ih =>
    rw [procBatches_cons]
    by_cases hb : fails b = true
    · rw [if_pos hb]
      exact ih c h
    · rw [if_neg hb]
      exact ih _ (procBatch_keys qqq env b c h)

theorem procBatches_res (qqq : Option (List PVal))
    (env : String → TickerEnv) (fails : List String → Bool)
    (bs : List (List String)) (c : CacheSt)
    (hnd : (effTickers fails bs).Nodup) :
    (procBatches qqq env fails bs c).1 =
      (effTickers fails bs).filterMap
        (fun t => (pstCore t (env t) qqq (lookupEntry c.entries t)).1) := by
  induction bs generalizing c with
  | nil => rfl
  | cons b bs ih =>
    rw [effTickers_cons] at hnd
    rw [procBatches_cons, effTickers_cons]
    by_cases hb : fails b = true
    · rw [if_pos hb]
      rw [if_pos hb]
      rw [if_pos hb] at hnd
      exact ih c hnd
    · rw [if_neg hb]
      rw [if_neg hb]
      rw [if_neg hb] at hnd
      rw [List.nodup_append] at hnd
      show (procBatch qqq env b c).1 ++
        (procBatches qqq env fails bs (procBatch qqq env b c).2).1 = _
      rw [List.filterMap_append]
      rw [procBatch_res qqq env b c hnd.1]
      rw [ih _ hnd.2.1]
      congr 1
      refine List.filterMap_congr (fun s hs => ?_)
      rw [procBatch_lookup_notmem qqq env b c s (fun hh => hnd.2.2 hh hs)]

theorem procBatches_stable (qqq : Option (List PVal))
    (env : String → TickerEnv) (fails : List String → Bool)
    (bs : List (List String)) (c : CacheSt) (hk : keysNodup c.entries)
    (hst : ∀ t ∈ effTickers fails bs,
      StableAt t (env t) qqq (lookupEntry c.entries t)) :
    ((procBatches qqq env fails bs c).2).entries = c.entries ∧
    ∃ w, ((procBatches qqq env fails bs c).2).wlog = c.wlog ++ w ∧
      ∀ k ∈ w, cacheHit (lookupEntry c.entries k) = false := by
  induction bs generalizing c with
  | nil => exact ⟨rfl, [], (List.append_nil _).symm, by simp⟩
  | cons b bs ih =>
    rw [procBatches_cons]
    by_cases hb : fails b = true
    · rw [if_pos hb]
      refine ih c hk (fun t ht => hst t ?_)
      rw [effTickers_cons, if_pos hb]
      exact ht
    · rw [if_neg hb]
      have hstb : ∀ t ∈ b, StableAt t (env t) qqq (lookupEntry c.entries t) := by
        intro t ht
        refine hst t ?_
        rw [effTickers_cons, if_neg hb]
        exact List.mem_append_left _ ht
      obtain ⟨he1, w1, hw1, hinv1⟩ := procBatch_stable qqq env b c hk hstb
      have hkeys2 : keysNodup ((procBatch qqq env b c).2).entries := by
        rw [he1]
        exact hk
      have hst2 : ∀ t ∈ effTickers fails bs,
          StableAt t (env t) qqq
            (lookupEntry ((procBatch qqq env b c).2).entries t) := by
        intro t ht
        rw [he1]
        refine hst t ?_
        rw [effTickers_cons, if_neg hb]
        exact List.mem_append_right _ ht
      obtain ⟨he2, w2, hw2, hinv2⟩ := ih _ hkeys2 hst2
      refine ⟨?_, w1 ++ w2, ?_, ?_⟩
      · show ((procBatches qqq env fails bs (procBatch qqq env b c).2).2).entries = _
        rw [he2, he1]
      · show ((procBatches qqq env fails bs (procBatch qqq env b c).2).2).wlog = _
        rw [hw2, hw1]
        simp
      · intro k hkmem
        rcases List.mem_append.1 hkmem with hk1 | hk2
        · exact hinv1 k hk1
        · have := hinv2 k hk2
          rw [he1] at this
          exact this

/-! ## Retry-fold characterisation -/

theorem procRetryBatch_cons (qqq : Option (List PVal))
    (env2 : String → TickerEnv) (t : String) (ts : List String)
    (acc : List ResultRec) (c : CacheSt) :
    procRetryBatch qqq env2 (t :: ts) acc c =
      procRetryBatch qqq env2 ts
        (match (process_single_ticker t (env2 t) qqq c).1 with
         | some rec => if rec.rs.isSome then applyRetryRec acc rec else acc
         | none => acc)
        (process_single_ticker t (env2 t) qqq c).2 := rfl

theorem procRetryBatch_snd (qqq : Option (List PVal))
    (env2 : String → TickerEnv) (ts : List String) (acc : List ResultRec)
    (c : CacheSt) :
    (procRetryBatch qqq env2 ts acc c).2 = (procBatch qqq env2 ts c).2 := by
  induction ts generalizing acc c with
  | nil => rfl
  | cons t ts ih =>
    rw [procRetryBatch_cons, procBatch_snd_cons]
    exact ih _ _

theorem retryFoldOuts_cons (o : Option ResultRec) (os : List (Option ResultRec))
    (acc : List ResultRec) :
    retryFoldOuts (o :: os) acc =
      retryFoldOuts os
        (match o with
         | some r => if r.rs.isSome then applyRetryRec acc r else acc
         | none => acc) := rfl

theorem retryFoldOuts_append (l1 l2 : List (Option ResultRec))
    (acc : List ResultRec) :
    retryFoldOuts (l1 ++ l2) acc = retryFoldOuts l2 (retryFoldOuts l1 acc) := by
  induction l1 generalizing acc with
  | nil => rfl
  | cons o os ih =>
    rw [List.cons_append, retryFoldOuts_cons, retryFoldOuts_cons]
    exact ih _

theorem procRetryBatch_res (qqq : Option (List PVal))
    (env2 : String → TickerEnv) (ts : List String) (acc : List ResultRec)
    (c : CacheSt) (hnd : ts.Nodup) :
    (procRetryBatch qqq env2 ts acc c).1 =
      retryFoldOuts
        (ts.map (fun t => (pstCore t (env2 t) qqq (lookupEntry c.entries t)).1))
        acc := by
  induction ts generalizing acc c with
  | nil => rfl
  | cons t ts ih =>
    rw [List.nodup_cons] at hnd
    rw [procRetryBatch_cons, List.map_cons, retryFoldOuts_cons]
    rw [ih _ _ hnd.2]
    have hmap : ts.map (fun s => (pstCore s (env2 s) qqq
        (lookupEntry ((process_single_ticker t (env2 t) qqq c).2).entries s)).1) =
        ts.map (fun s => (pstCore s (env2 s) qqq (lookupEntry c.entries s)).1) := by
      refine List.map_congr_left (fun s hs => ?_)
      have hne : s ≠ t := fun hh => hnd.1 (hh ▸ hs)
      rw [pst_snd_lookup_ne t (env2 t) qqq c s hne]
    rw [hmap, pst_fst]

theorem procRetryBatches_cons (qqq : Option (List PVal))
    (env2 : String → TickerEnv) (fails2 : List String → Bool)
    (b : List String) (bs : List (List String)) (acc : List ResultRec)
    (c : CacheSt) :
    procRetryBatches qqq env2 fails2 (b :: bs) acc c =
      if fails2 b then procRetryBatches qqq env2 fails2 bs acc c
      else procRetryBatches qqq env2 fails2 bs
        (procRetryBatch qqq env2 b acc c).1
        (procRetryBatch qqq env2 b acc c).2 := rfl

theorem procRetryBatches_snd (qqq : Option (List PVal))
    (env2 : String → TickerEnv) (fails2 : List String → Bool)
    (bs : List (List String)) (acc : List ResultRec) (c : CacheSt) :
    (procRetryBatches qqq env2 fails2 bs acc c).2 =
      (procBatches qqq env2 fails2 bs c).2 := by
  induction bs generalizing acc c with
  | nil => rfl
  | cons b bs ih =>
    rw [procRetryBatches_cons, procBatches_cons]
    by_cases hb : fails2 b = true
    · rw [if_pos hb, if_pos hb]
      exact ih _ _
    · rw [if_neg hb, if_neg hb]
      show (procRetryBatches qqq env2 fails2 bs _ _).2 = _
      rw [ih _ _, procRetryBatch_snd]

theorem procRetryBatches_res (qqq : Option (List PVal))
    (env2 : String → TickerEnv) (fails2 : List String → Bool)
    (bs : List (List String)) (acc : List ResultRec) (c : CacheSt)
    (hnd : (effTickers fails2 bs).Nodup) :
    (procRetryBatches qqq env2 fails2 bs acc c).1 =
      retryFoldOuts
        ((effTickers fails2 bs).map
          (fun t => (pstCore t (env2 t) qqq (lookupEntry c.entries t)).1))
        acc := by
  induction bs generalizing acc c with
  | nil => rfl
  | cons b bs ih =>
    rw [effTickers_cons] at hnd
    rw [procRetryBatches_cons, effTickers_cons]
    by_cases hb : fails2 b = true
    · rw [if_pos hb]
      rw [if_pos hb]
      rw [if_pos hb] at hnd
      exact ih _ _ hnd
    · rw [if_neg hb]
      rw [if_neg hb]
      rw [if_neg hb] at hnd
      rw [List.nodup_append] at hnd
      rw [List.map_append, retryFoldOuts_append]
      show (procRetryBatches qqq env2 fails2 bs
        (procRetryBatch qqq env2 b acc c).1
        (procRetryBatch qqq env2 b acc c).2).1 = _
      rw [ih _ _ hnd.2.1]
      rw [procRetryBatch_res qqq env2 b acc c hnd.1]
      rw [procRetryBatch_snd]
      have hmap : (effTickers fails2 bs).map (fun s => (pstCore s (env2 s) qqq
          (lookupEntry ((procBatch qqq env2 b c).2).entries s)).1) =
          (effTickers fails2 bs).map
            (fun s => (pstCore s (env2 s) qqq (lookupEntry c.entries s)).1) := by
        refine List.map_congr_left (fun s hs => ?_)
        rw [procBatch_lookup_notmem qqq env2 b c s (fun hh => hnd.2.2 hh hs)]
      rw [hmap]

theorem chunksOf_nil (n : ℕ) : chunksOf n ([] : List α) = [] := by
  rw [chunksOf]

theorem chunksOf_cons (n : ℕ) (x : α) (xs : List α) :
    chunksOf n (x :: xs) =
      (x :: xs.take (n - 1)) :: chunksOf n (xs.drop (n - 1)) := by
  rw [chunksOf]

theorem chunksOf_flatten (n : ℕ) (l : List α) : (chunksOf n l).flatten = l := by
  induction l using chunksOf.induct n with
  | case1 =>
    rw [chunksOf_nil]
    rfl
  | case2 x xs ih =>
    rw [chunksOf_cons, List.flatten_cons, ih]
    rw [List.cons_append, List.take_append_drop]

theorem effTickers_sublist (fails : List String → Bool)
    (bs : List (List String)) : (effTickers fails bs).Sublist bs.flatten := by
  induction bs with
  | nil => exact List.Sublist.refl _
  | cons b bs ih =>
    rw [effTickers_cons, List.flatten_cons]
    by_cases hb : fails b = true
    · rw [if_pos hb]
      exact ih.trans (List.sublist_append_right b bs.flatten)
    · rw [if_neg hb]
      exact ih.append_left b

theorem failedOf_nodup (tickers : List String) (res : List ResultRec) :
    (failedOf tickers res).Nodup :=
  (tickers.nodup_dedup).filter _

/-- C7: with a deterministic provider (retry sees the same per-ticker data
as the first pass) and a duplicate-free ticker universe, running the
pipeline a second time on the cache the first run left behind returns
exactly the same result list (hence identical Sector/Industry fields),
leaves the cache's entry list unchanged (so its entry count does not
increase), and performs cache writes only at keys whose entry is still
invalid — never for entries already valid in the cache. -/
theorem C7_claim (pe : PipelineEnv) (tickers : List String) (c0 : CacheSt)
    (hnd : tickers.Nodup) (hdet : pe.env2 = pe.env1)
    (hkeys : keysNodup c0.entries) :
    (get_market_cap_and_rs pe tickers
      (get_market_cap_and_rs pe tickers c0).2).1 =
      (get_market_cap_and_rs pe tickers c0).1 ∧
    ((get_market_cap_and_rs pe tickers
      (get_market_cap_and_rs pe tickers c0).2).2).entries =
      ((get_market_cap_and_rs pe tickers c0).2).entries ∧
    ∃ w, ((get_market_cap_and_rs pe tickers
        (get_market_cap_and_rs pe tickers c0).2).2).wlog =
      ((get_market_cap_and_rs pe tickers c0).2).wlog ++ w ∧
      ∀ k ∈ w, cacheHit (lookupEntry
        ((get_market_cap_and_rs pe tickers c0).2).entries k) = false := by
  obtain ⟨qqq0, env1, fails1, env2, fails2⟩ := pe
  have hdet2 : env2 = env1 := hdet
  subst hdet2
  have hnd1 : (effTickers fails1 (chunksOf 20 tickers)).Nodup := by
    refine List.Nodup.sublist (effTickers_sublist fails1 _) ?_
    rw [chunksOf_flatten]
    exact hnd
  have hstab : ∀ (t : String) (eo : Option CacheEntry),
      StableAt t (env2 t) qqq0 (entryAfter t (env2 t) qqq0 eo) :=
    fun t eo => (pst_stable_next t (env2 t) qqq0 eo).1
  have hout : ∀ (t : String) (eo : Option CacheEntry),
      (pstCore t (env2 t) qqq0 (entryAfter t (env2 t) qqq0 eo)).1 =
        (pstCore t (env2 t) qqq0 eo).1 :=
    fun t eo => (pst_stable_next t (env2 t) qqq0 eo).2
  set r1 := procBatches qqq0 env2 fails1 (chunksOf 20 tickers) c0 with hr1v
  set failed1 := failedOf tickers r1.1 with hfailed1v
  set bs2 := chunksOf 20 failed1 with hbs2v
  set fin1 := procRetryBatches qqq0 env2 fails2 bs2 r1.1 r1.2 with hfin1v
  have hnd2 : (effTickers fails2 bs2).Nodup := by
    refine List.Nodup.sublist (effTickers_sublist fails2 _) ?_
    rw [hbs2v, chunksOf_flatten]
    exact failedOf_nodup tickers r1.1
  have hrun1 : get_market_cap_and_rs ⟨qqq0, env2, fails1, env2, fails2⟩
      tickers c0 = fin1 := rfl
  -- run-1 cache facts
  have hAkeys : keysNodup r1.2.entries :=
    procBatches_keys qqq0 env2 fails1 (chunksOf 20 tickers) c0 hkeys
  have hA_mem : ∀ t ∈ effTickers fails1 (chunksOf 20 tickers),
      lookupEntry r1.2.entries t =
        entryAfter t (env2 t) qqq0 (lookupEntry c0.entries t) :=
    fun t ht => procBatches_lookup_mem qqq0 env2 fails1 _ c0 t hnd1 ht
  have hc1snd : fin1.2 = (procBatches qqq0 env2 fails2 bs2 r1.2).2 :=
    procRetryBatches_snd qqq0 env2 fails2 bs2 r1.1 r1.2
  have hc1keys : keysNodup fin1.2.entries := by
    rw [hc1snd]
    exact procBatches_keys qqq0 env2 fails2 bs2 r1.2 hAkeys
  have hc1_mem : ∀ t ∈ effTickers fails2 bs2,
      lookupEntry fin1.2.entries t =
        entryAfter t (env2 t) qqq0 (lookupEntry r1.2.entries t) := by
    intro t ht
    rw [hc1snd]
    exact procBatches_lookup_mem qqq0 env2 fails2 bs2 r1.2 t hnd2 ht
  have hc1_not : ∀ (t : String), t ∉ effTickers fails2 bs2 →
      lookupEntry fin1.2.entries t = lookupEntry r1.2.entries t := by
    intro t ht
    rw [hc1snd]
    exact procBatches_lookup_notmem qqq0 env2 fails2 bs2 r1.2 t ht
  -- stability of the final run-1 cache
  have hstable1 : ∀ t ∈ effTickers fails1 (chunksOf 20 tickers),
      StableAt t (env2 t) qqq0 (lookupEntry fin1.2.entries t) := by
    intro t ht
    by_cases h2 : t ∈ effTickers fails2 bs2
    · rw [hc1_mem t h2]
      exact hstab t _
    · rw [hc1_not t h2, hA_mem t ht]
      exact hstab t _
  have hstable2 : ∀ t ∈ effTickers fails2 bs2,
      StableAt t (env2 t) qqq0 (lookupEntry fin1.2.entries t) := by
    intro t ht
    rw [hc1_mem t ht]
    exact hstab t _
  -- run-2 first pass
  set r2 := procBatches qqq0 env2 fails1 (chunksOf 20 tickers) fin1.2
    with hr2v
  have hres2eq : r2.1 = r1.1 := by
    rw [hr2v, hr1v,
      procBatches_res qqq0 env2 fails1 (chunksOf 20 tickers) fin1.2 hnd1,
      procBatches_res qqq0 env2 fails1 (chunksOf 20 tickers) c0 hnd1]
    refine List.filterMap_congr (fun t ht => ?_)
    by_cases h2 : t ∈ effTickers fails2 bs2
    · rw [hc1_mem t h2, hA_mem t ht, hout t _, hout t _]
    · rw [hc1_not t h2, hA_mem t ht, hout t _]
  obtain ⟨hBent, w1, hBwlog, hBinv⟩ :=
    procBatches_stable qqq0 env2 fails1 (chunksOf 20 tickers) fin1.2
      hc1keys hstable1
  have hBkeys : keysNodup r2.2.entries := by
    rw [hBent]
    exact hc1keys
  have hfail2 : failedOf tickers r2.1 = failed1 := by
    rw [hres2eq]
  have hrun2 : get_market_cap_and_rs ⟨qqq0, env2, fails1, env2, fails2⟩
      tickers fin1.2 = procRetryBatches qqq0 env2 fails2 bs2 r2.1 r2.2 := by
    show procRetryBatches qqq0 env2 fails2
        (chunksOf 20 (failedOf tickers r2.1)) r2.1 r2.2 =
      procRetryBatches qqq0 env2 fails2 bs2 r2.1 r2.2
    rw [hfail2]
  -- conjunct 1: identical outputs
  have hcon1 : (procRetryBatches qqq0 env2 fails2 bs2 r2.1 r2.2).1 =
      fin1.1 := by
    rw [procRetryBatches_res qqq0 env2 fails2 bs2 r2.1 r2.2 hnd2, hfin1v,
      procRetryBatches_res qqq0 env2 fails2 bs2 r1.1 r1.2 hnd2, hres2eq]
    have hmapeq : (effTickers fails2 bs2).map
        (fun t => (pstCore t (env2 t) qqq0
          (lookupEntry r2.2.entries t)).1) =
        (effTickers fails2 bs2).map
          (fun t => (pstCore t (env2 t) qqq0
            (lookupEntry r1.2.entries t)).1) := by
      refine List.map_congr_left (fun t ht => ?_)
      rw [hBent, hc1_mem t ht, hout t _]
    rw [hmapeq]
  -- run-2 retry cache
  have hstable2' : ∀ t ∈ effTickers fails2 bs2,
      StableAt t (env2 t) qqq0 (lookupEntry r2.2.entries t) := by
    intro t ht
    rw [hBent]
    exact hstable2 t ht
  have hfin2snd : (procRetryBatches qqq0 env2 fails2 bs2 r2.1 r2.2).2 =
      (procBatches qqq0 env2 fails2 bs2 r2.2).2 :=
    procRetryBatches_snd qqq0 env2 fails2 bs2 r2.1 r2.2
  obtain ⟨hCent, w2, hCwlog, hCinv⟩ :=
    procBatches_stable qqq0 env2 fails2 bs2 r2.2 hBkeys hstable2'
  rw [hrun1, hrun2]
  refine ⟨hcon1, ?_, w1 ++ w2, ?_, ?_⟩
  · rw [hfin2snd, hCent, hBent]
  · rw [hfin2snd, hCwlog, hBwlog]
    simp
  · intro k hkmem
    rcases List.mem_append.1 hkmem with hk1 | hk2
    · exact hBinv k hk1
    · have := hCinv k hk2
      rw [hBent] at this
      exact this

/-- C7 (witness): idempotence applied to the concrete single-ticker run. -/
theorem C7_witness :
    (get_market_cap_and_rs peShort ["A"]
      (get_market_cap_and_rs peShort ["A"] ⟨[], []⟩).2).1 =
      (get_market_cap_and_rs peShort ["A"] ⟨[], []⟩).1 ∧
    ((get_market_cap_and_rs peShort ["A"]
      (get_market_cap_and_rs peShort ["A"] ⟨[], []⟩).2).2).entries =
      ((get_market_cap_and_rs peShort ["A"] ⟨[], []⟩).2).entries ∧
    ∃ w, ((get_market_cap_and_rs peShort ["A"]
        (get_market_cap_and_rs peShort ["A"] ⟨[], []⟩).2).2).wlog =
      ((get_market_cap_and_rs peShort ["A"] ⟨[], []⟩).2).wlog ++ w ∧
      ∀ k ∈ w, cacheHit (lookupEntry
        ((get_market_cap_and_rs peShort ["A"] ⟨[], []⟩).2).entries k) =
          false :=
  C7_claim peShort ["A"] ⟨[], []⟩ (by decide) rfl
    (by unfold keysNodup; simp)
